import Mathlib

/-!
# University records demo: student/course records and the flat-file loader

A shallow embedding of `src/main.cpp`.

* `std::string` is `List Char`; `std::vector<T>` is `List T`.
* `int` is `Int` restricted to the 32-bit range `[INT_MIN, INT_MAX]`; every place
  where the program adds or subtracts one on an `int` goes through `wrap32`.
* The static member `Student::next_roll_number` is threaded explicitly.
* Console output is not part of the state; where an outcome is only visible
  on the console (which branch of `enroll` ran, whether a line was reported
  as corrupt) the embedding returns a tag for it.
* An exception that leaves a function is a tagged result.
-/

namespace UMS

/-! ## Machine integers -/

def INT_MIN : Int := -2147483648

def INT_MAX : Int := 2147483647

/-- The values an `int` can hold. -/
def InIntRange (v : Int) : Prop := INT_MIN ≤ v ∧ v ≤ INT_MAX

instance (v : Int) : Decidable (InIntRange v) := by
  unfold InIntRange; exact inferInstance

/-- Two's-complement reduction of a mathematical integer to 32 bits. -/
def wrap32 (v : Int) : Int := (v + 2147483648) % 4294967296 - 2147483648

/-! ## Library functions: `std::to_string(int)`, `std::stoi`, `std::getline` -/

/-- The character of a decimal digit `d < 10`. -/
def digitChar (d : Nat) : Char := Char.ofNat (48 + d)

/-- Decimal digits of `n`, most significant first; `fuel` bounds the number of digits. -/
def natDigits : Nat → Nat → List Char
  | 0, _ => []
  | fuel + 1, n =>
    if n < 10 then [digitChar n] else natDigits fuel (n / 10) ++ [digitChar (n % 10)]

/-- Decimal rendering of a natural number, no leading zeros. -/
def nat_to_string (n : Nat) : List Char := natDigits (n + 1) n

/-- Model of `std::to_string(int)`: a minus sign for negatives, then the decimal magnitude. -/
def std_to_string (v : Int) : List Char :=
  if v < 0 then '-' :: nat_to_string v.natAbs else nat_to_string v.natAbs

/-- Model of `isspace` in the C locale. -/
def isspace (c : Char) : Bool :=
  c.toNat = 32 || (9 ≤ c.toNat && c.toNat ≤ 13)

/-- Value of a run of decimal digit characters. -/
def digitsValue (ds : List Char) : Nat :=
  ds.foldl (fun a c => 10 * a + (c.toNat - 48)) 0

/-- Outcome of `std::stoi`: a value, or one of the two exceptions it raises. -/
inductive StoiResult where
  | ok (v : Int)
  | invalid_argument
  | out_of_range
  deriving DecidableEq, Repr

/-- Removes one leading sign character, as `strtol` does. -/
def dropSign : List Char → List Char
  | [] => []
  | c :: t => if c = '-' ∨ c = '+' then t else c :: t

/-- Model of `std::stoi(s)` (base 10): leading white space is skipped, one optional sign is
read, then the longest run of digits; what follows the digits is ignored. No digit raises
`std::invalid_argument`; a value outside `int` raises `std::out_of_range`. -/
def std_stoi (s : List Char) : StoiResult :=
  let s1 := s.dropWhile isspace
  let ds := (dropSign s1).takeWhile Char.isDigit
  if ds.isEmpty then StoiResult.invalid_argument
  else
    let mag : Int := (digitsValue ds : Nat)
    let v : Int := if s1.head? = some '-' then -mag else mag
    if v < INT_MIN ∨ INT_MAX < v then StoiResult.out_of_range else StoiResult.ok v

/-- Model of `std::getline(stream, token, delim)` on the unread rest `s` of a stream: fails
when nothing is left; otherwise yields the characters before the first delimiter and the
rest after that delimiter (the delimiter is extracted and dropped). -/
def getline (delim : Char) (s : List Char) : Option (List Char × List Char) :=
  match s with
  | [] => none
  | _ => some (s.takeWhile (fun c => c != delim), (s.dropWhile (fun c => c != delim)).drop 1)

/-- The line delimiter of `std::getline(infile, line)` and the character written after
each record. -/
def newline : Char := Char.ofNat 10

/-! ## `DatabaseManager::split` -/

/-- The loop `while (std::getline(tokenStream, token, delimiter)) tokens.push_back(token)`. -/
def split_loop (delimiter : Char) : Nat → List Char → List (List Char)
  | 0, _ => []
  | fuel + 1, s =>
    match getline delimiter s with
    | none => []
    | some (token, rest) => token :: split_loop delimiter fuel rest

/-- Embeds `DatabaseManager::split`: every call of `getline` consumes at least one character, so
`s.length + 1` iterations are enough. -/
def split (s : List Char) (delimiter : Char) : List (List Char) :=
  split_loop delimiter (s.length + 1) s

/-! ## `Course` -/

structure Course where
  course_id : Int
  title : List Char
  capacity : Int
  enrolled_students : Int
  deriving DecidableEq, Repr

/-- Embeds `Course::Course(int id, std::string t, int cap)`. -/
def Course.create (id : Int) (t : List Char) (cap : Int) : Course :=
  { course_id := id, title := t, capacity := cap, enrolled_students := 0 }

/-- Embeds `Course::increment_enrollment`: `none` is the thrown `SystemException`. -/
def Course.increment_enrollment (c : Course) : Option Course :=
  if c.enrolled_students ≥ c.capacity then none
  else some { c with enrolled_students := wrap32 (c.enrolled_students + 1) }

/-- Embeds `Course::to_string`. -/
def Course.to_string (c : Course) : List Char :=
  std_to_string c.course_id ++ ['|'] ++ c.title ++ ['|'] ++ std_to_string c.capacity
    ++ ['|'] ++ std_to_string c.enrolled_students

/-! ## `Student` -/

structure Student where
  user_id : Int
  name : List Char
  roll_number : Int
  enrolled_course_ids : List Int
  deriving DecidableEq, Repr

/-- Embeds `Student::Student(std::string n, int id)`: takes the counter `next_roll_number` as roll
number and post-increments it. Returns the new student and the new counter. -/
def Student.create (n : List Char) (id : Int) (next_roll_number : Int) : Student × Int :=
  ({ user_id := id, name := n, roll_number := next_roll_number, enrolled_course_ids := [] },
    wrap32 (next_roll_number + 1))

/-- Embeds `Student::Student(std::string n, int id, int roll)`: keeps the given roll number and
moves the counter to `roll + 1` when `roll >= next_roll_number`. -/
def Student.create_with_roll (n : List Char) (id : Int) (roll : Int) (next_roll_number : Int) :
    Student × Int :=
  ({ user_id := id, name := n, roll_number := roll, enrolled_course_ids := [] },
    if roll ≥ next_roll_number then wrap32 (roll + 1) else next_roll_number)

/-- Embeds `Student::get_total_students`. -/
def Student.get_total_students (next_roll_number : Int) : Int :=
  wrap32 (next_roll_number - 1)

/-- Embeds `Student::enroll(int course_id)`. -/
def Student.enroll (s : Student) (course_id : Int) : Student :=
  if course_id ∈ s.enrolled_course_ids then s
  else { s with enrolled_course_ids := s.enrolled_course_ids ++ [course_id] }

/-- Which branch of `Student::enroll(const Course&)` ran. -/
inductive EnrollOutcome where
  | enrolled
  | already_enrolled
  | course_full
  deriving DecidableEq, Repr

/-- Embeds `Student::enroll(const Course& course)`: returns the student, the course (mutated through
the `const_cast`) and the branch taken. -/
def Student.enroll_course (s : Student) (course : Course) : Student × Course × EnrollOutcome :=
  let course_id := course.course_id
  if course_id ∈ s.enrolled_course_ids then (s, course, EnrollOutcome.already_enrolled)
  else
    match course.increment_enrollment with
    | some course1 =>
      ({ s with enrolled_course_ids := s.enrolled_course_ids ++ [course_id] }, course1,
        EnrollOutcome.enrolled)
    | none => (s, course, EnrollOutcome.course_full)

/-- The loop of `Student::to_string` followed by the `pop_back` of the trailing comma. -/
def Student.courses_str (s : Student) : List Char :=
  let courses_str :=
    s.enrolled_course_ids.foldl (fun acc id => acc ++ (std_to_string id ++ [','])) []
  if courses_str.isEmpty then courses_str else courses_str.dropLast

/-- Embeds `Student::to_string`. -/
def Student.to_string (s : Student) : List Char :=
  std_to_string s.user_id ++ ['|'] ++ s.name ++ ['|'] ++ std_to_string s.roll_number
    ++ ['|'] ++ s.courses_str

/-! ## `RecordList<Student>` -/

/-- Embeds `RecordList::add_record` (the `verbose` flag only prints). -/
def add_record (records : List Student) (record : Student) : List Student :=
  records ++ [record]

/-- Embeds `RecordList::find_record`. -/
def find_record (records : List Student) (id : Int) : Option Student :=
  records.find? (fun record => record.user_id = id)

/-- Embeds `RecordList::count`. -/
def count (records : List Student) : Nat := records.length

/-! ## `DatabaseManager::load_students` -/

/-- How the body of the `while` loop ends for one line. -/
inductive LineOutcome where
  | skipped
  | added (s : Student)
  | corrupt
  | escaped
  deriving DecidableEq, Repr

/-- The loop `for (cid_str : course_ids) s.enroll(std::stoi(cid_str))`; it stops at the
first token on which `std::stoi` throws. -/
def enroll_tokens : List (List Char) → Student → LineOutcome
  | [], s => LineOutcome.added s
  | cid_str :: rest, s =>
    match std_stoi cid_str with
    | StoiResult.ok cid => enroll_tokens rest (s.enroll cid)
    | StoiResult.invalid_argument => LineOutcome.corrupt
    | StoiResult.out_of_range => LineOutcome.escaped

/-- The body of the `while` loop of `load_students` for one line, with the counter
`next_roll_number` before it. `skipped` is a `continue`, `corrupt` the `catch` of
`std::invalid_argument`, `escaped` a `std::out_of_range` that no handler of the function
catches. The counter returned is the one after the line. -/
def load_line (line : List Char) (next_roll_number : Int) : LineOutcome × Int :=
  if line.isEmpty then (LineOutcome.skipped, next_roll_number)
  else
    match split line '|' with
    | p0 :: p1 :: p2 :: more =>
      match std_stoi p0 with
      | StoiResult.invalid_argument => (LineOutcome.corrupt, next_roll_number)
      | StoiResult.out_of_range => (LineOutcome.escaped, next_roll_number)
      | StoiResult.ok id =>
        match std_stoi p2 with
        | StoiResult.invalid_argument => (LineOutcome.corrupt, next_roll_number)
        | StoiResult.out_of_range => (LineOutcome.escaped, next_roll_number)
        | StoiResult.ok roll =>
          let made := Student.create_with_roll p1 id roll next_roll_number
          match more with
          | p3 :: _ =>
            if p3.isEmpty then (LineOutcome.added made.1, made.2)
            else (enroll_tokens (split p3 ',') made.1, made.2)
          | [] => (LineOutcome.added made.1, made.2)
    | _ => (LineOutcome.skipped, next_roll_number)

/-- How a call of `load_students` ends. -/
inductive Completion where
  | returned
  | threw_out_of_range
  deriving DecidableEq, Repr

/-- State of a load: how it ended, the destination collection, the static counter. -/
structure LoadResult where
  completion : Completion
  records : List Student
  next_roll_number : Int
  deriving DecidableEq, Repr

/-- The `while (std::getline(infile, line))` loop over the lines already read. -/
def load_lines : List (List Char) → List Student → Int → LoadResult
  | [], records, next_roll_number =>
    { completion := Completion.returned, records := records,
      next_roll_number := next_roll_number }
  | line :: rest, records, next_roll_number =>
    match load_line line next_roll_number with
    | (LineOutcome.added s, counter) => load_lines rest (add_record records s) counter
    | (LineOutcome.skipped, counter) => load_lines rest records counter
    | (LineOutcome.corrupt, counter) => load_lines rest records counter
    | (LineOutcome.escaped, counter) =>
      { completion := Completion.threw_out_of_range, records := records,
        next_roll_number := counter }

/-- Embeds `DatabaseManager::load_students`. `file` is the content of the student file, `none`
when it cannot be opened. The destination is cleared first; the lines of the file are
those `std::getline` yields with the newline as delimiter. -/
def load_students (file : Option (List Char)) (student_list : List Student)
    (next_roll_number : Int) : LoadResult :=
  let cleared : List Student := student_list.take 0
  match file with
  | none =>
    { completion := Completion.returned, records := cleared,
      next_roll_number := next_roll_number }
  | some text => load_lines (split text newline) cleared next_roll_number

/-- Embeds `DatabaseManager::save_students` when the file opens: one `to_string()` line per record,
each followed by a newline. -/
def save_students (records : List Student) : List Char :=
  records.foldl (fun out s => out ++ (s.to_string ++ [newline])) []

/-! ## Notions the specification uses -/

/-- Tokens joined by a separator character, with none after the last token. -/
def joinWith (sep : Char) : List (List Char) → List Char
  | [] => []
  | [x] => x
  | x :: y :: r => x ++ sep :: joinWith sep (y :: r)

/-- Decimal notation of an integer, from the positional digits of its magnitude. -/
def decimal (v : Int) : List Char :=
  let ds := if v.natAbs = 0 then ['0'] else (Nat.digits 10 v.natAbs).reverse.map digitChar
  if v < 0 then '-' :: ds else ds

/-- A list of course ids with later repetitions of an id removed, the order of first
occurrences kept. -/
def keepFirst : List Int → List Int
  | [] => []
  | c :: cs => c :: (keepFirst cs).filter (fun x => x ≠ c)

/-! ## Call sequences -/

/-- The students of a list call `enroll(course)` in turn on one course object. Returns each
student after its call with the branch taken, and the course after the last call. -/
def enroll_in_turn : List Student → Course → List (Student × EnrollOutcome) × Course
  | [], course => ([], course)
  | s :: rest, course =>
    let r := s.enroll_course course
    let rs := enroll_in_turn rest r.2.1
    ((r.1, r.2.2) :: rs.1, rs.2)

/-- Successive calls of `increment_enrollment` on one course object, each inside its own
`try`: `true` for a call that returns, `false` for one that throws (the course is then as
before the call). -/
def increment_calls : Nat → Course → List Bool × Course
  | 0, c => ([], c)
  | n + 1, c =>
    match c.increment_enrollment with
    | some c1 => let r := increment_calls n c1; (true :: r.1, r.2)
    | none => let r := increment_calls n c; (false :: r.1, r.2)

/-- The student after a successful enrollment in course `cid`. -/
def with_course (cid : Int) (s : Student) : Student :=
  { s with enrolled_course_ids := s.enrolled_course_ids ++ [cid] }

/-! ## Sequences of student creations -/

/-- The initial value of the static member `Student::next_roll_number`. -/
def Student.initial_next_roll_number : Int := 1001

/-- One student creation: by the auto-assigning constructor `Student(n, id)` or by the
explicit-roll constructor `Student(n, id, roll)`. -/
inductive Creation where
  | auto (n : List Char) (id : Int)
  | with_roll (n : List Char) (id : Int) (roll : Int)
  deriving DecidableEq, Repr

/-- Runs the constructor of one creation on the counter. -/
def Creation.run (op : Creation) (counter : Int) : Student × Int :=
  match op with
  | Creation.auto n id => Student.create n id counter
  | Creation.with_roll n id roll => Student.create_with_roll n id roll counter

/-- Creates the students of a sequence in order, from a given counter: the students in
creation order and the counter after the last creation. -/
def create_all : List Creation → Int → List Student × Int
  | [], counter => ([], counter)
  | op :: rest, counter =>
    let made := op.run counter
    let r := create_all rest made.2
    (made.1 :: r.1, r.2)

/-- The roll number an explicit creation supplies is an `int`. -/
def Creation.roll_in_range (op : Creation) : Bool :=
  match op with
  | Creation.auto _ _ => true
  | Creation.with_roll _ _ roll => decide (InIntRange roll)

/-- The value a creation adds one to is below `INT_MAX`: the counter for the auto-assigning
constructor, the supplied roll number for the explicit one. -/
def Creation.increment_fits (op : Creation) (counter : Int) : Bool :=
  match op with
  | Creation.auto _ _ => decide (counter < INT_MAX)
  | Creation.with_roll _ _ roll => decide (roll < INT_MAX)

/-- No creation of the sequence overflows an `int`. -/
def no_overflow : List Creation → Int → Bool
  | [], _ => true
  | op :: rest, counter => op.increment_fits counter && no_overflow rest (op.run counter).2

/-! ## Classes of lines of the student file -/

/-- An optional minus sign followed by one or more decimal digits. -/
def is_numeral (s : List Char) : Bool :=
  match s with
  | [] => false
  | c :: t =>
    if c = '-' then !t.isEmpty && t.all Char.isDigit else (c :: t).all Char.isDigit

/-- The integer a numeral denotes. -/
def numeral_value (s : List Char) : Int :=
  match s with
  | [] => 0
  | c :: t => if c = '-' then -((digitsValue t : Nat) : Int) else ((digitsValue (c :: t) : Nat) : Int)

/-- A decimal integer in `int` range. -/
def is_int_numeral (s : List Char) : Bool :=
  is_numeral s && decide (InIntRange (numeral_value s))

/-- The course-id tokens of a line, from the fields after the third: those of a fourth
field that is present and not empty. -/
def course_tokens (more : List (List Char)) : List (List Char) :=
  match more.head? with
  | some p3 => if p3.isEmpty then [] else split p3 ','
  | none => []

/-- Well-formed line in the wording of the claim: at least three fields, the id field, the
roll field and every course-id token decimal integers in `int` range. -/
def stated_well_formed (line : List Char) : Bool :=
  match split line '|' with
  | p0 :: _ :: p2 :: more =>
    is_int_numeral p0 && is_int_numeral p2 && (course_tokens more).all is_int_numeral
  | _ => false

/-- The other lines the claim allows: blank, fewer than three fields, or an id or roll
field that is not numeric. -/
def stated_other (line : List Char) : Bool :=
  match split line '|' with
  | p0 :: _ :: p2 :: _ => !is_numeral p0 || !is_numeral p2
  | _ => true

/-- Whether `std::stoi` returns a value for the field. -/
def parses (s : List Char) : Bool :=
  match std_stoi s with
  | StoiResult.ok _ => true
  | _ => false

/-- The value `std::stoi` returns for the field (0 when it throws). -/
def stoi_value (s : List Char) : Int :=
  match std_stoi s with
  | StoiResult.ok v => v
  | _ => 0

/-- A line with at least three fields on whose id field, roll field and course-id tokens
`std::stoi` succeeds: each starts, after optional white space and one optional sign, with
decimal digits whose value is an `int`. -/
def line_kept (line : List Char) : Bool :=
  match split line '|' with
  | p0 :: _ :: p2 :: more => parses p0 && parses p2 && (course_tokens more).all parses
  | _ => false

/-- A line that is empty, or has fewer than three fields, or on whose id field `std::stoi`
finds no number, or whose id field parses and on whose roll field `std::stoi` finds no
number. -/
def line_dropped (line : List Char) : Bool :=
  match split line '|' with
  | p0 :: _ :: p2 :: _ =>
    std_stoi p0 == StoiResult.invalid_argument
      || (parses p0 && std_stoi p2 == StoiResult.invalid_argument)
  | _ => true

/-- The record a kept line describes: id and roll number from the first and third field,
name the second field, course ids the token values with later repetitions removed. -/
def record_of (line : List Char) : Student :=
  match split line '|' with
  | p0 :: p1 :: p2 :: more =>
    { user_id := stoi_value p0, name := p1, roll_number := stoi_value p2,
      enrolled_course_ids := keepFirst ((course_tokens more).map stoi_value) }
  | _ => { user_id := 0, name := [], roll_number := 0, enrolled_course_ids := [] }

/-! ## Calls on one course, calls of one student, lookup position -/

/-- One call on a course object: a direct `increment_enrollment()` whose exception the
caller catches, or `s.enroll(course)` by a student in state `s`. -/
inductive CourseCall where
  | increment
  | enroll (s : Student)
  deriving DecidableEq, Repr

/-- The course after one call. -/
def CourseCall.run (call : CourseCall) (c : Course) : Course :=
  match call with
  | CourseCall.increment =>
    match c.increment_enrollment with
    | some c1 => c1
    | none => c
  | CourseCall.enroll s => (s.enroll_course c).2.1

/-- The course after a sequence of calls. -/
def run_calls : List CourseCall → Course → Course
  | [], c => c
  | call :: rest, c => run_calls rest (call.run c)

/-- One enrollment call of a student: `enroll(course_id)` or `enroll(course)` on a course
object in some state. -/
inductive EnrollCall where
  | by_id (course_id : Int)
  | by_course (course : Course)
  deriving DecidableEq, Repr

/-- The student after one enrollment call. -/
def EnrollCall.run (call : EnrollCall) (s : Student) : Student :=
  match call with
  | EnrollCall.by_id course_id => s.enroll course_id
  | EnrollCall.by_course course => (s.enroll_course course).1

/-- The student after a sequence of enrollment calls. -/
def run_enrolls : List EnrollCall → Student → Student
  | [], s => s
  | call :: rest, s => run_enrolls rest (call.run s)

/-- The position of the element the pointer returned by `RecordList::find_record` refers
to: the loop returns at the first record whose `get_id()` is `id`. -/
def find_record_pos : List Student → Int → Option Nat
  | [], _ => none
  | record :: rest, id =>
    if record.user_id = id then some 0 else (find_record_pos rest id).map (fun i => i + 1)

/-! ## Lines skipped for a course-id token -/

/-- What `std::stoi` raises on the first token of a run that it cannot read; `none` when
it reads every token. -/
def first_failure : List (List Char) → Option StoiResult
  | [] => none
  | tok :: rest =>
    match std_stoi tok with
    | StoiResult.ok _ => first_failure rest
    | StoiResult.invalid_argument => some StoiResult.invalid_argument
    | StoiResult.out_of_range => some StoiResult.out_of_range

/-- A line with at least three fields whose id and roll fields parse and in which the
first course-id token that `std::stoi` cannot read holds no number. -/
def line_bad_token (line : List Char) : Bool :=
  match split line '|' with
  | p0 :: _ :: p2 :: more =>
    parses p0 && parses p2
      && first_failure (course_tokens more) == some StoiResult.invalid_argument
  | _ => false

/-! ## Sequences of creations that include loads -/

/-- How a student record came to be: by the auto-assigning constructor, by the
explicit-roll constructor called directly, or by `load_students`. -/
inductive Origin where
  | auto
  | explicit
  | loaded
  deriving DecidableEq, Repr

/-- One step that creates student records: a call of one of the two constructors, or a
call of `load_students` on a student file (`none` when the file cannot be opened). -/
inductive Event where
  | auto (n : List Char) (id : Int)
  | with_roll (n : List Char) (id : Int) (roll : Int)
  | load (file : Option (List Char))
  deriving DecidableEq, Repr

/-- The records a step creates, each with its origin, and the counter after the step. A
load fills a collection of its own; its records are those the collection holds when
`load_students` ends. -/
def Event.run (e : Event) (counter : Int) : List (Student × Origin) × Int :=
  match e with
  | Event.auto n id =>
    ([((Student.create n id counter).1, Origin.auto)], (Student.create n id counter).2)
  | Event.with_roll n id roll =>
    ([((Student.create_with_roll n id roll counter).1, Origin.explicit)],
      (Student.create_with_roll n id roll counter).2)
  | Event.load file =>
    ((load_students file [] counter).records.map (fun s => (s, Origin.loaded)),
      (load_students file [] counter).next_roll_number)

/-- The records of a sequence of steps in creation order, and the counter after it. -/
def run_events : List Event → Int → List (Student × Origin) × Int
  | [], counter => ([], counter)
  | e :: rest, counter =>
    let r := e.run counter
    let rs := run_events rest r.2
    (r.1 ++ rs.1, rs.2)

/-- The roll number a direct explicit creation supplies is an `int`. -/
def Event.roll_in_range (e : Event) : Bool :=
  match e with
  | Event.with_roll _ _ roll => decide (InIntRange roll)
  | _ => true

/-- The constructor does not overflow on the line: when the id and the roll field parse,
so that the `Student` object is constructed, the roll number is below `INT_MAX`. -/
def line_roll_fits (line : List Char) : Bool :=
  match split line '|' with
  | p0 :: _ :: p2 :: _ => !(parses p0 && parses p2) || decide (stoi_value p2 < INT_MAX)
  | _ => true

/-- No line that the loop of `load_students` reads makes the constructor overflow; the
lines after one that ends the load with an exception are not read. -/
def lines_fit : List (List Char) → Int → Bool
  | [], _ => true
  | line :: rest, counter =>
    line_roll_fits line &&
      (match (load_line line counter).1 with
        | LineOutcome.escaped => true
        | _ => lines_fit rest (load_line line counter).2)

/-- The step does not overflow an `int`. -/
def Event.fits (e : Event) (counter : Int) : Bool :=
  match e with
  | Event.auto _ _ => decide (counter < INT_MAX)
  | Event.with_roll _ _ roll => decide (roll < INT_MAX)
  | Event.load none => true
  | Event.load (some text) => lines_fit (split text newline) counter

/-- No step of the sequence overflows an `int`. -/
def events_fit : List Event → Int → Bool
  | [], _ => true
  | e :: rest, counter => e.fits counter && events_fit rest (e.run counter).2

/-! # Theorems -/

/-! ## Decimal rendering and parsing -/

theorem digitChar_facts : ∀ d < 10, (digitChar d).isDigit = true ∧ (digitChar d).toNat - 48 = d := by
  decide

theorem isDigit_not_special (c : Char) (h : c.isDigit = true) :
    isspace c = false ∧ c ≠ '-' ∧ c ≠ '+' ∧ c ≠ '|' ∧ c ≠ ',' ∧ c ≠ Char.ofNat 10 := by
  have h1 : 48 ≤ c.toNat ∧ c.toNat ≤ 57 := by
    simpa [Char.isDigit, Char.toNat, UInt32.le_def, Nat.le_antisymm_iff] using h
  refine ⟨?_, ?_, ?_, ?_, ?_, ?_⟩
  · simp only [isspace, Bool.or_eq_false_iff, Bool.and_eq_false_iff, decide_eq_false_iff_not]
    omega
  all_goals
    intro hc
    rw [hc] at h1
    revert h1
    decide

theorem digitsValue_append (xs : List Char) (c : Char) :
    digitsValue (xs ++ [c]) = 10 * digitsValue xs + (c.toNat - 48) := by
  simp [digitsValue, List.foldl_append]

theorem natDigits_spec : ∀ fuel n, n < fuel →
    (∀ c ∈ natDigits fuel n, c.isDigit = true) ∧ digitsValue (natDigits fuel n) = n
      ∧ natDigits fuel n ≠ [] := by
  intro fuel
  induction fuel with
  | zero => intro n h; omega
  | succ fuel ih =>
    intro n h
    unfold natDigits
    by_cases h10 : n < 10
    · have hd := digitChar_facts n h10
      simp only [h10, if_true]
      refine ⟨?_, ?_, by simp⟩
      · intro c hc
        rw [List.mem_singleton] at hc
        rw [hc]; exact hd.1
      · simp [digitsValue, hd.2]
    · have hlt : n / 10 < fuel := by omega
      obtain ⟨h1, h2, _⟩ := ih (n / 10) hlt
      have hd := digitChar_facts (n % 10) (Nat.mod_lt _ (by decide))
      simp only [h10, if_false]
      refine ⟨?_, ?_, by simp⟩
      · intro c hc
        rcases List.mem_append.mp hc with hc | hc
        · exact h1 c hc
        · rw [List.mem_singleton] at hc
          rw [hc]; exact hd.1
      · rw [digitsValue_append, h2, hd.2]
        omega

theorem nat_to_string_spec (n : Nat) :
    (∀ c ∈ nat_to_string n, c.isDigit = true) ∧ digitsValue (nat_to_string n) = n
      ∧ nat_to_string n ≠ [] :=
  natDigits_spec (n + 1) n (Nat.lt_succ_self n)

theorem takeWhile_all {α : Type} (p : α → Bool) (l : List α) (h : ∀ a ∈ l, p a = true) :
    l.takeWhile p = l := by
  induction l with
  | nil => rfl
  | cons a l ih =>
    rw [List.takeWhile_cons_of_pos (h a (List.mem_cons_self a l)),
      ih (fun b hb => h b (List.mem_cons_of_mem a hb))]

/-- Parsing the rendering of a natural number gives it back. -/
theorem std_stoi_nat_to_string (n : Nat) (h : (n : Int) ≤ INT_MAX) :
    std_stoi (nat_to_string n) = StoiResult.ok n := by
  obtain ⟨hdig, hval, hne⟩ := nat_to_string_spec n
  obtain ⟨c, t, hct⟩ := List.exists_cons_of_ne_nil hne
  have hc : c.isDigit = true := hdig c (by rw [hct]; exact List.mem_cons_self c t)
  obtain ⟨hsp, hm, hp, _⟩ := isDigit_not_special c hc
  have hdrop : (nat_to_string n).dropWhile isspace = nat_to_string n := by
    rw [hct, List.dropWhile_cons_of_neg (by simp [hsp])]
  have hsign : dropSign (nat_to_string n) = nat_to_string n := by
    rw [hct]; simp [dropSign, hm, hp]
  have hhead : ¬ ((nat_to_string n).head? = some '-') := by
    rw [hct]; simp [hm]
  have hempty : (nat_to_string n).isEmpty = false := by
    rw [hct]; rfl
  unfold std_stoi
  simp only [hdrop, hsign, takeWhile_all _ _ hdig, hempty, hval, hhead, if_false]
  have h0 : ¬ ((n : Int) < INT_MIN ∨ INT_MAX < (n : Int)) := by
    unfold INT_MIN; unfold INT_MAX at *; omega
  simp [h0]

/-- Parsing the rendering of a negative number gives it back. -/
theorem std_stoi_neg_to_string (n : Nat) (h : INT_MIN ≤ -(n : Int)) :
    std_stoi ('-' :: nat_to_string n) = StoiResult.ok (-(n : Int)) := by
  obtain ⟨hdig, hval, hne⟩ := nat_to_string_spec n
  have hdrop : ('-' :: nat_to_string n).dropWhile isspace = '-' :: nat_to_string n := by
    rw [List.dropWhile_cons_of_neg (by decide)]
  have hempty : (nat_to_string n).isEmpty = false := by
    cases hn : nat_to_string n with
    | nil => exact absurd hn hne
    | cons c t => rfl
  unfold std_stoi
  simp only [hdrop, dropSign, true_or, if_true, takeWhile_all _ _ hdig, hempty, hval,
    List.head?_cons]
  have h0 : ¬ (-(n : Int) < INT_MIN ∨ INT_MAX < -(n : Int)) := by
    unfold INT_MIN at *; unfold INT_MAX; omega
  simp [h0]

/-- Parsing with `std::stoi` inverts `std::to_string` on every `int`. -/
theorem std_stoi_to_string (v : Int) (h : InIntRange v) :
    std_stoi (std_to_string v) = StoiResult.ok v := by
  unfold InIntRange at h
  unfold std_to_string
  by_cases hneg : v < 0
  · simp only [hneg, if_true]
    have hv : v = -((v.natAbs : Nat) : Int) := by omega
    have := std_stoi_neg_to_string v.natAbs (by rw [← hv]; exact h.1)
    rw [this, ← hv]
  · simp only [hneg, if_false]
    have hv : v = ((v.natAbs : Nat) : Int) := by omega
    have := std_stoi_nat_to_string v.natAbs (by rw [← hv]; exact h.2)
    rw [this, ← hv]

/-- The rendering of an `int` has only digits and at most a leading minus sign. -/
theorem std_to_string_chars (v : Int) :
    std_to_string v ≠ [] ∧ ∀ c ∈ std_to_string v, c = '-' ∨ c.isDigit = true := by
  obtain ⟨hdig, _, hne⟩ := nat_to_string_spec v.natAbs
  unfold std_to_string
  by_cases hneg : v < 0
  · simp only [hneg, if_true]
    refine ⟨by simp, ?_⟩
    intro c hc
    rcases List.mem_cons.mp hc with hc | hc
    · exact Or.inl hc
    · exact Or.inr (hdig c hc)
  · simp only [hneg, if_false]
    exact ⟨hne, fun c hc => Or.inr (hdig c hc)⟩

theorem std_to_string_no_delim (v : Int) :
    '|' ∉ std_to_string v ∧ ',' ∉ std_to_string v ∧ Char.ofNat 10 ∉ std_to_string v := by
  have h := (std_to_string_chars v).2
  refine ⟨?_, ?_, ?_⟩ <;>
  · intro hmem
    rcases h _ hmem with hc | hc
    · revert hc; decide
    · have := isDigit_not_special _ hc
      simp at this

/-! ## `getline` and `split` -/

theorem takeWhile_ne_append (d : Char) (a rest : List Char) (h : d ∉ a) :
    (a ++ d :: rest).takeWhile (fun c => c != d) = a := by
  induction a with
  | nil => simp
  | cons x a ih =>
    have hx : x ≠ d := fun e => h (by rw [e]; exact List.mem_cons_self d a)
    have ha : d ∉ a := fun m => h (List.mem_cons_of_mem x m)
    simp [List.takeWhile_cons, hx, ih ha]

theorem dropWhile_ne_append (d : Char) (a rest : List Char) (h : d ∉ a) :
    (a ++ d :: rest).dropWhile (fun c => c != d) = d :: rest := by
  induction a with
  | nil => simp
  | cons x a ih =>
    have hx : x ≠ d := fun e => h (by rw [e]; exact List.mem_cons_self d a)
    have ha : d ∉ a := fun m => h (List.mem_cons_of_mem x m)
    simp [List.dropWhile_cons, hx, ih ha]

/-- Reading up to a delimiter that is present. -/
theorem getline_append_cons (d : Char) (a rest : List Char) (h : d ∉ a) :
    getline d (a ++ d :: rest) = some (a, rest) := by
  have hne : a ++ d :: rest ≠ [] := by simp
  unfold getline
  split
  · rename_i heq; exact absurd heq hne
  · rw [takeWhile_ne_append d a rest h, dropWhile_ne_append d a rest h]; rfl

/-- Reading the last token, which has no delimiter after it. -/
theorem getline_last (d : Char) (a : List Char) (h : d ∉ a) (hne : a ≠ []) :
    getline d a = some (a, []) := by
  have htake : a.takeWhile (fun c => c != d) = a :=
    takeWhile_all _ _ (fun c hc => by
      have : c ≠ d := fun e => h (e ▸ hc)
      simp [this])
  have hdrop : a.dropWhile (fun c => c != d) = [] := by
    rw [List.dropWhile_eq_nil_iff]
    intro c hc
    have : c ≠ d := fun e => h (e ▸ hc)
    simp [this]
  cases a with
  | nil => exact absurd rfl hne
  | cons x t =>
    show some (_, _) = _
    rw [htake, hdrop]; rfl

/-- A successful `getline` consumes at least one character. -/
theorem getline_shorter (d : Char) (s tok rest : List Char)
    (h : getline d s = some (tok, rest)) : rest.length < s.length := by
  unfold getline at h
  split at h
  · exact absurd h (by simp)
  · rename_i hne
    simp only [Option.some.injEq, Prod.mk.injEq] at h
    rw [← h.2]
    have hlen : (s.dropWhile (fun c => c != d)).length ≤ s.length :=
      (List.dropWhile_sublist _).length_le
    have hpos : 0 < s.length := by
      cases s with
      | nil => exact absurd rfl (hne)
      | cons x t => simp
    simp only [List.length_drop]
    omega

/-- With enough fuel the result of the loop does not depend on the fuel. -/
theorem split_loop_fuel (d : Char) : ∀ (f1 f2 : Nat) (s : List Char),
    s.length < f1 → s.length < f2 → split_loop d f1 s = split_loop d f2 s := by
  intro f1
  induction f1 with
  | zero => intro f2 s h; omega
  | succ f1 ih =>
    intro f2 s h1 h2
    cases f2 with
    | zero => omega
    | succ f2 =>
      unfold split_loop
      cases hg : getline d s with
      | none => rfl
      | some p =>
        obtain ⟨tok, rest⟩ := p
        have := getline_shorter d s tok rest hg
        simp only
        rw [ih f2 rest (by omega) (by omega)]

/-- The unfolding equation of `split`: one `getline`, then the split of the rest. -/
theorem split_unfold (s : List Char) (d : Char) :
    split s d = match getline d s with
      | none => []
      | some (token, rest) => token :: split rest d := by
  unfold split
  rw [split_loop]
  cases hg : getline d s with
  | none => rfl
  | some p =>
    obtain ⟨tok, rest⟩ := p
    have := getline_shorter d s tok rest hg
    simp only
    rw [split_loop_fuel d s.length (rest.length + 1) rest (by omega) (by omega)]

theorem split_nil (d : Char) : split [] d = [] := by
  rw [split_unfold]; rfl

theorem split_append_cons (d : Char) (a rest : List Char) (h : d ∉ a) :
    split (a ++ d :: rest) d = a :: split rest d := by
  rw [split_unfold, getline_append_cons d a rest h]

theorem split_last (d : Char) (a : List Char) (h : d ∉ a) (hne : a ≠ []) :
    split a d = [a] := by
  rw [split_unfold, getline_last d a h hne]
  simp only [split_nil]

/-! ## Encoding -/

theorem nat_to_string_eq_digits : ∀ fuel n, n < fuel →
    natDigits fuel n =
      if n = 0 then ['0'] else (Nat.digits 10 n).reverse.map digitChar := by
  intro fuel
  induction fuel with
  | zero => intro n h; omega
  | succ fuel ih =>
    intro n h
    unfold natDigits
    by_cases h10 : n < 10
    · simp only [h10, if_true]
      by_cases h0 : n = 0
      · subst h0; rfl
      · simp [h0, Nat.digits_of_lt 10 n h0 h10]
    · have hpos : 0 < n := by omega
      have hne : n ≠ 0 := by omega
      have hq : n / 10 ≠ 0 := by omega
      simp only [h10, if_false, hne]
      rw [ih (n / 10) (by omega), Nat.digits_def' (by decide) hpos]
      simp [hq]

/-- The model of `std::to_string` writes decimal notation. -/
theorem std_to_string_eq_decimal (v : Int) : std_to_string v = decimal v := by
  unfold std_to_string decimal nat_to_string
  rw [nat_to_string_eq_digits _ _ (Nat.lt_succ_self _)]

theorem foldl_append_sep (f : Int → List Char) (cs : List Int) (init : List Char) :
    cs.foldl (fun acc id => acc ++ (f id ++ [','])) init
      = init ++ cs.flatMap (fun id => f id ++ [',']) := by
  induction cs generalizing init with
  | nil => simp
  | cons c cs ih => simp [ih, List.flatMap_cons, List.append_assoc]

theorem flatMap_sep_eq_join (f : Int → List Char) (c : Int) (cs : List Int) :
    (c :: cs).flatMap (fun id => f id ++ [',']) = joinWith ',' ((c :: cs).map f) ++ [','] := by
  induction cs generalizing c with
  | nil => simp [joinWith]
  | cons d cs ih =>
    rw [List.flatMap_cons, ih d]
    simp [joinWith, List.append_assoc]

/-- The comma loop of `Student::to_string` followed by `pop_back` is a comma join. -/
theorem courses_str_eq_join (s : Student) :
    s.courses_str = joinWith ',' (s.enrolled_course_ids.map std_to_string) := by
  unfold Student.courses_str
  simp only [foldl_append_sep, List.nil_append]
  cases hcs : s.enrolled_course_ids with
  | nil => simp [joinWith]
  | cons c cs =>
    rw [flatMap_sep_eq_join]
    simp

/-- C8: `Student::to_string` is decimal(id), name, decimal(roll) and the course ids in list
order joined by commas (none trailing, empty field for an empty list), separated by `|`;
`Course::to_string` is decimal(id), title, decimal(capacity), decimal(enrolled); the course
201 "CS" with capacity 30 and 5 enrolled encodes to `201|CS|30|5`. -/
theorem to_string_format :
    (∀ s : Student, s.to_string =
        decimal s.user_id ++ ['|'] ++ s.name ++ ['|'] ++ decimal s.roll_number ++ ['|']
          ++ joinWith ',' (s.enrolled_course_ids.map decimal))
    ∧ (∀ s : Student, s.enrolled_course_ids = [] → s.to_string =
        decimal s.user_id ++ ['|'] ++ s.name ++ ['|'] ++ decimal s.roll_number ++ ['|'])
    ∧ (∀ s : Student, s.enrolled_course_ids ≠ [] → s.to_string.getLast? ≠ some ',')
    ∧ (∀ c : Course, c.to_string =
        decimal c.course_id ++ ['|'] ++ c.title ++ ['|'] ++ decimal c.capacity ++ ['|']
          ++ decimal c.enrolled_students)
    ∧ Course.to_string
        { course_id := 201, title := "CS".toList, capacity := 30, enrolled_students := 5 }
        = "201|CS|30|5".toList := by
  have hdec : std_to_string = decimal := funext std_to_string_eq_decimal
  refine ⟨?_, ?_, ?_, ?_, by decide⟩
  · intro s
    unfold Student.to_string
    rw [courses_str_eq_join, hdec]
  · intro s hs
    unfold Student.to_string
    rw [courses_str_eq_join, hdec, hs]
    simp [joinWith]
  · intro s hs
    unfold Student.to_string
    rw [courses_str_eq_join]
    have hlast : ∀ (toks : List (List Char)), toks ≠ [] →
        (∀ t ∈ toks, t ≠ [] ∧ ',' ∉ t) → ∀ pre : List Char,
        (pre ++ joinWith ',' toks).getLast? ≠ some ',' := by
      intro toks
      induction toks with
      | nil => intro h; exact absurd rfl h
      | cons x r ih =>
        intro _ hall pre
        have hx := hall x (List.mem_cons_self x r)
        cases r with
        | nil =>
          simp only [joinWith]
          rw [List.getLast?_append_of_ne_nil _ hx.1]
          intro hl
          exact hx.2 (List.mem_of_getLast?_eq_some hl)
        | cons y r =>
          simp only [joinWith]
          have := ih (by simp) (fun t ht => hall t (List.mem_cons_of_mem x ht))
            (pre ++ x ++ [','])
          simpa [List.append_assoc] using this
    apply hlast
    · simpa using hs
    · intro t ht
      obtain ⟨c, _, rfl⟩ := List.mem_map.mp ht
      exact ⟨(std_to_string_chars c).1, (std_to_string_no_delim c).2.1⟩
  · intro c
    unfold Course.to_string
    rw [hdec]

/-- Witness of C8: a student without courses encodes with an empty last field. -/
theorem to_string_format_witness :
    (Student.mk 5001 "Alice Smith".toList 1001 []).enrolled_course_ids = []
    ∧ (Student.mk 5001 "Alice Smith".toList 1001 []).to_string
      = decimal 5001 ++ ['|'] ++ "Alice Smith".toList ++ ['|'] ++ decimal 1001 ++ ['|'] :=
  ⟨rfl, to_string_format.2.1 (Student.mk 5001 "Alice Smith".toList 1001 []) rfl⟩

/-! ## Decoding one line -/

theorem mem_joinWith (sep : Char) : ∀ (toks : List (List Char)) (c : Char),
    c ∈ joinWith sep toks → c = sep ∨ ∃ t ∈ toks, c ∈ t := by
  intro toks
  induction toks with
  | nil => intro c h; simp [joinWith] at h
  | cons x r ih =>
    intro c h
    cases r with
    | nil =>
      simp only [joinWith] at h
      exact Or.inr ⟨x, List.mem_cons_self x [], h⟩
    | cons y r =>
      simp only [joinWith, List.mem_append, List.mem_cons] at h
      rcases h with h | h | h
      · exact Or.inr ⟨x, List.mem_cons_self x _, h⟩
      · exact Or.inl h
      · rcases ih c h with h | ⟨t, ht, hc⟩
        · exact Or.inl h
        · exact Or.inr ⟨t, List.mem_cons_of_mem x ht, hc⟩

theorem joinWith_ne_nil (sep : Char) (x : List Char) (r : List (List Char)) (hx : x ≠ []) :
    joinWith sep (x :: r) ≠ [] := by
  cases r with
  | nil => simpa [joinWith] using hx
  | cons y r => simp [joinWith, hx]

/-- Splitting a join at its separator gives the tokens back. -/
theorem split_joinWith (d : Char) : ∀ (toks : List (List Char)),
    (∀ t ∈ toks, d ∉ t ∧ t ≠ []) → split (joinWith d toks) d = toks := by
  intro toks
  induction toks with
  | nil => intro _; exact split_nil d
  | cons x r ih =>
    intro h
    have hx := h x (List.mem_cons_self x r)
    cases r with
    | nil => simpa [joinWith] using split_last d x hx.1 hx.2
    | cons y r =>
      simp only [joinWith]
      rw [split_append_cons d x _ hx.1, ih (fun t ht => h t (List.mem_cons_of_mem x ht))]

/-- The comma field of course ids has no `|`. -/
theorem pipe_not_mem_courses (cs : List Int) :
    '|' ∉ joinWith ',' (cs.map std_to_string) := by
  intro hmem
  rcases mem_joinWith ',' _ _ hmem with h | ⟨t, ht, hc⟩
  · revert h; decide
  · obtain ⟨c, _, rfl⟩ := List.mem_map.mp ht
    exact (std_to_string_no_delim c).1 hc

/-- The fields `DatabaseManager::split` finds in `id|name|roll|courses`: the fourth one is
dropped when it is empty. -/
theorem split_record_line (a n r j : List Char) (ha : '|' ∉ a) (hn : '|' ∉ n)
    (hr : '|' ∉ r) (hj : '|' ∉ j) :
    split (a ++ ['|'] ++ n ++ ['|'] ++ r ++ ['|'] ++ j) '|'
      = a :: n :: r :: (if j = [] then [] else [j]) := by
  have e : a ++ ['|'] ++ n ++ ['|'] ++ r ++ ['|'] ++ j
      = a ++ '|' :: (n ++ '|' :: (r ++ '|' :: j)) := by simp [List.append_assoc]
  rw [e, split_append_cons _ a _ ha, split_append_cons _ n _ hn, split_append_cons _ r _ hr]
  by_cases hj0 : j = []
  · simp [hj0, split_nil]
  · simp [hj0, split_last _ j hj hj0]

theorem split_three_fields (a n r : List Char) (ha : '|' ∉ a) (hn : '|' ∉ n)
    (hr : '|' ∉ r) (hr0 : r ≠ []) :
    split (a ++ ['|'] ++ n ++ ['|'] ++ r) '|' = [a, n, r] := by
  have e : a ++ ['|'] ++ n ++ ['|'] ++ r = a ++ '|' :: (n ++ '|' :: r) := by
    simp [List.append_assoc]
  rw [e, split_append_cons _ a _ ha, split_append_cons _ n _ hn, split_last _ r hr hr0]

/-- What `load_line` does once the first three fields parse. -/
theorem load_line_parsed (line p0 p1 p2 : List Char) (more : List (List Char))
    (counter id roll : Int) (hline : line ≠ [])
    (hsplit : split line '|' = p0 :: p1 :: p2 :: more)
    (h0 : std_stoi p0 = StoiResult.ok id) (h2 : std_stoi p2 = StoiResult.ok roll) :
    load_line line counter =
      (match more.head? with
        | some p3 =>
          if p3.isEmpty then
            LineOutcome.added (Student.create_with_roll p1 id roll counter).1
          else enroll_tokens (split p3 ',') (Student.create_with_roll p1 id roll counter).1
        | none => LineOutcome.added (Student.create_with_roll p1 id roll counter).1,
        (Student.create_with_roll p1 id roll counter).2) := by
  have he : line.isEmpty = false := by
    cases line with
    | nil => exact absurd rfl hline
    | cons c t => rfl
  unfold load_line
  simp only [he, hsplit, h0, h2]
  cases more with
  | nil => simp
  | cons p3 rest =>
    by_cases h3 : p3.isEmpty = true
    · simp [h3]
    · simp [h3]

/-- Course-id tokens written by `std::to_string` are all enrolled. -/
theorem enroll_tokens_rendered : ∀ (cs : List Int) (s : Student),
    (∀ c ∈ cs, InIntRange c) →
    enroll_tokens (cs.map std_to_string) s = LineOutcome.added (cs.foldl Student.enroll s) := by
  intro cs
  induction cs with
  | nil => intro s _; rfl
  | cons c cs ih =>
    intro s h
    simp only [List.map_cons, enroll_tokens, List.foldl_cons]
    rw [std_stoi_to_string c (h c (List.mem_cons_self c cs))]
    exact ih _ (fun d hd => h d (List.mem_cons_of_mem c hd))

theorem enroll_fields (s : Student) (c : Int) :
    (s.enroll c).user_id = s.user_id ∧ (s.enroll c).name = s.name
      ∧ (s.enroll c).roll_number = s.roll_number
      ∧ (s.enroll c).enrolled_course_ids =
          if c ∈ s.enrolled_course_ids then s.enrolled_course_ids
          else s.enrolled_course_ids ++ [c] := by
  unfold Student.enroll
  by_cases h : c ∈ s.enrolled_course_ids <;> simp [h]

/-- Enrolling a list of ids one after the other appends the ids that are new, each once, in
the order of their first occurrence. -/
theorem foldl_enroll : ∀ (cs : List Int) (s : Student),
    cs.foldl Student.enroll s =
      { s with enrolled_course_ids :=
          s.enrolled_course_ids
            ++ (keepFirst cs).filter (fun x => decide (x ∉ s.enrolled_course_ids)) } := by
  intro cs
  induction cs with
  | nil => intro s; simp [keepFirst]
  | cons c cs ih =>
    intro s
    rw [List.foldl_cons, ih]
    obtain ⟨h1, h2, h3, h4⟩ := enroll_fields s c
    by_cases hc : c ∈ s.enrolled_course_ids
    · have hs : s.enroll c = s := by unfold Student.enroll; simp [hc]
      rw [hs]
      congr 2
      simp only [keepFirst, List.filter_cons, hc, not_true_eq_false, decide_False,
        Bool.false_eq_true, if_false, List.filter_filter]
      apply List.filter_congr
      intro x _
      by_cases hx : x ∈ s.enrolled_course_ids
      · simp [hx]
      · have : x ≠ c := fun e => hx (e ▸ hc)
        simp [hx, this]
    · have hs : s.enroll c
          = { s with enrolled_course_ids := s.enrolled_course_ids ++ [c] } := by
        unfold Student.enroll; simp [hc]
      rw [hs]
      simp only [keepFirst, List.filter_cons, hc, not_false_eq_true, decide_True, if_true,
        List.filter_filter, List.append_assoc, List.singleton_append]
      congr 3
      apply List.filter_congr
      intro x _
      by_cases hx : x ∈ s.enrolled_course_ids
      · simp [hx]
      · by_cases hxc : x = c
        · simp [hxc]
        · simp [hx, hxc]

theorem keepFirst_nodup : ∀ (cs : List Int), cs.Nodup → keepFirst cs = cs := by
  intro cs
  induction cs with
  | nil => intro _; rfl
  | cons c cs ih =>
    intro h
    rw [List.nodup_cons] at h
    simp only [keepFirst, ih h.2]
    congr 1
    rw [List.filter_eq_self]
    intro x hx
    have : x ≠ c := fun e => h.1 (e ▸ hx)
    simp [this]

/-- Decoding `id|name|roll|c1,...,ck` as written by `std::to_string`. -/
theorem load_line_rendered (i r : Int) (n : List Char) (cs : List Int) (counter : Int)
    (hi : InIntRange i) (hr : InIntRange r) (hcs : ∀ c ∈ cs, InIntRange c)
    (hn : '|' ∉ n) :
    load_line (std_to_string i ++ ['|'] ++ n ++ ['|'] ++ std_to_string r ++ ['|']
        ++ joinWith ',' (cs.map std_to_string)) counter
      = (LineOutcome.added
          { user_id := i, name := n, roll_number := r, enrolled_course_ids := keepFirst cs },
        (Student.create_with_roll n i r counter).2) := by
  have hline : std_to_string i ++ ['|'] ++ n ++ ['|'] ++ std_to_string r ++ ['|']
      ++ joinWith ',' (cs.map std_to_string) ≠ [] := by simp
  rw [load_line_parsed _ _ _ _ _ counter i r hline
    (split_record_line _ n _ _ (std_to_string_no_delim i).1 hn (std_to_string_no_delim r).1
      (pipe_not_mem_courses cs))
    (std_stoi_to_string i hi) (std_stoi_to_string r hr)]
  cases cs with
  | nil => simp [joinWith, keepFirst, Student.create_with_roll]
  | cons c cs =>
    have hj : joinWith ',' ((c :: cs).map std_to_string) ≠ [] :=
      joinWith_ne_nil ',' _ _ (std_to_string_chars c).1
    have hje : (joinWith ',' ((c :: cs).map std_to_string)).isEmpty = false := by
      cases hk : joinWith ',' ((c :: cs).map std_to_string) with
      | nil => exact absurd hk hj
      | cons x t => rfl
    have hsp : split (joinWith ',' ((c :: cs).map std_to_string)) ','
        = (c :: cs).map std_to_string := by
      apply split_joinWith
      intro t ht
      obtain ⟨d, _, rfl⟩ := List.mem_map.mp ht
      exact ⟨(std_to_string_no_delim d).2.1, (std_to_string_chars d).1⟩
    rw [if_neg hj]
    simp only [List.head?_cons, hje, hsp, Bool.false_eq_true, if_false]
    rw [enroll_tokens_rendered _ _ hcs, foldl_enroll]
    simp [Student.create_with_roll]

/-- Decoding the three-field line `id|name|roll`. -/
theorem load_line_three_fields (i r : Int) (n : List Char) (counter : Int)
    (hi : InIntRange i) (hr : InIntRange r) (hn : '|' ∉ n) :
    load_line (std_to_string i ++ ['|'] ++ n ++ ['|'] ++ std_to_string r) counter
      = (LineOutcome.added
          { user_id := i, name := n, roll_number := r, enrolled_course_ids := [] },
        (Student.create_with_roll n i r counter).2) := by
  have hline : std_to_string i ++ ['|'] ++ n ++ ['|'] ++ std_to_string r ≠ [] := by simp
  rw [load_line_parsed _ _ _ _ _ counter i r hline
    (split_three_fields _ n _ (std_to_string_no_delim i).1 hn (std_to_string_no_delim r).1
      (std_to_string_chars r).1)
    (std_stoi_to_string i hi) (std_stoi_to_string r hr)]
  simp [Student.create_with_roll]

/-- C1: for every student whose name has no `|` and whose course-id list has no duplicate,
decoding the line written by `Student::to_string` with the per-line logic of
`load_students` adds a record with the same identifier, name, roll number and course-id
list in the same order (whatever the counter is, also for an empty name or list). -/
theorem student_line_round_trip (s : Student) (counter : Int)
    (hid : InIntRange s.user_id) (hroll : InIntRange s.roll_number)
    (hcs : ∀ c ∈ s.enrolled_course_ids, InIntRange c) (hname : '|' ∉ s.name)
    (hnodup : s.enrolled_course_ids.Nodup) :
    (load_line s.to_string counter).1 = LineOutcome.added s := by
  unfold Student.to_string
  rw [courses_str_eq_join, load_line_rendered _ _ _ _ counter hid hroll hcs hname,
    keepFirst_nodup _ hnodup]

/-- Witness of C1: the round trip of Alice Smith with two courses, and of a student with
an empty name and no course. -/
theorem student_line_round_trip_witness :
    (InIntRange 5001 ∧ InIntRange 1001 ∧ (∀ c ∈ [101, 102], InIntRange c)
      ∧ '|' ∉ "Alice Smith".toList ∧ [(101 : Int), 102].Nodup)
    ∧ (load_line (Student.to_string (Student.mk 5001 "Alice Smith".toList 1001 [101, 102]))
          1003).1
        = LineOutcome.added (Student.mk 5001 "Alice Smith".toList 1001 [101, 102])
    ∧ (load_line (Student.to_string (Student.mk (-4) [] 2147483647 [])) 1003).1
        = LineOutcome.added (Student.mk (-4) [] 2147483647 []) :=
  ⟨by decide,
    student_line_round_trip (Student.mk 5001 "Alice Smith".toList 1001 [101, 102]) 1003
      (by decide) (by decide) (by decide) (by decide) (by decide),
    student_line_round_trip (Student.mk (-4) [] 2147483647 []) 1003
      (by decide) (by decide) (by decide) (by decide) (by decide)⟩

/-! ## Loading a file -/

/-- C2: a line whose id field is a number too large for `int` makes `std::stoi` throw
`std::out_of_range`, which the handler for `std::invalid_argument` does not catch: the
exception leaves `load_students`, and the well-formed line after it is never read. -/
theorem load_students_out_of_range_escapes :
    std_stoi "99999999999".toList = StoiResult.out_of_range
    ∧ load_students (some "99999999999|Bob|1001\n5001|Alice Smith|1002\n".toList) [] 1001
      = LoadResult.mk Completion.threw_out_of_range [] 1001
    ∧ load_students (some "5001|Alice Smith|1002\n".toList) [] 1001
      = LoadResult.mk Completion.returned
          [Student.mk 5001 "Alice Smith".toList 1002 []] 1003 := by
  decide

/-! ## Enrollment and capacity -/

theorem wrap32_of_in_range (v : Int) (h : InIntRange v) : wrap32 v = v := by
  unfold InIntRange INT_MIN INT_MAX at h
  unfold wrap32
  omega

/-- An `increment_enrollment` below capacity adds one. -/
theorem increment_enrollment_free (c : Course) (h : c.enrolled_students < c.capacity)
    (h0 : INT_MIN ≤ c.enrolled_students) (hcap : c.capacity ≤ INT_MAX) :
    c.increment_enrollment = some { c with enrolled_students := c.enrolled_students + 1 } := by
  unfold Course.increment_enrollment
  have hw : wrap32 (c.enrolled_students + 1) = c.enrolled_students + 1 :=
    wrap32_of_in_range _ (by unfold InIntRange INT_MIN INT_MAX at *; omega)
  simp [not_le.mpr h, hw]

/-- An `increment_enrollment` at capacity throws. -/
theorem increment_enrollment_full (c : Course) (h : c.capacity ≤ c.enrolled_students) :
    c.increment_enrollment = none := by
  unfold Course.increment_enrollment
  simp [h]

theorem enroll_course_free (s : Student) (c : Course)
    (hs : c.course_id ∉ s.enrolled_course_ids) (h : c.enrolled_students < c.capacity)
    (h0 : INT_MIN ≤ c.enrolled_students) (hcap : c.capacity ≤ INT_MAX) :
    s.enroll_course c = (with_course c.course_id s,
      { c with enrolled_students := c.enrolled_students + 1 }, EnrollOutcome.enrolled) := by
  unfold Student.enroll_course
  simp [hs, increment_enrollment_free c h h0 hcap, with_course]

theorem enroll_course_full (s : Student) (c : Course)
    (hs : c.course_id ∉ s.enrolled_course_ids) (h : c.capacity ≤ c.enrolled_students) :
    s.enroll_course c = (s, c, EnrollOutcome.course_full) := by
  unfold Student.enroll_course
  simp [hs, increment_enrollment_full c h]

/-- Students not yet in the course enroll in turn: the first `free` succeed. -/
theorem enroll_in_turn_spec : ∀ (ss : List Student) (c : Course) (free : Nat),
    INT_MIN ≤ c.enrolled_students → c.capacity ≤ INT_MAX →
    c.enrolled_students + free = c.capacity →
    (∀ s ∈ ss, c.course_id ∉ s.enrolled_course_ids) →
    enroll_in_turn ss c =
      ((ss.take free).map (fun s => (with_course c.course_id s, EnrollOutcome.enrolled))
        ++ (ss.drop free).map (fun s => (s, EnrollOutcome.course_full)),
       { c with enrolled_students := c.enrolled_students + (min free ss.length : Nat) }) := by
  intro ss
  induction ss with
  | nil => intro c free _ _ _ _; simp [enroll_in_turn]
  | cons s rest ih =>
    intro c free h0 hcap hfree hss
    have hs := hss s (List.mem_cons_self s rest)
    have hrest : ∀ t ∈ rest, c.course_id ∉ t.enrolled_course_ids :=
      fun t ht => hss t (List.mem_cons_of_mem s ht)
    unfold enroll_in_turn
    cases free with
    | zero =>
      rw [enroll_course_full s c hs (by omega)]
      simp only
      rw [ih c 0 h0 hcap hfree hrest]
      simp
    | succ free =>
      rw [enroll_course_free s c hs (by omega) h0 hcap]
      simp only
      rw [ih { c with enrolled_students := c.enrolled_students + 1 } free
        (by simp only; omega) hcap (by simp only; omega) hrest]
      simp only [List.take_succ_cons, List.map_cons, List.drop_succ_cons, List.cons_append,
        List.length_cons, Nat.succ_min_succ, Prod.mk.injEq, true_and]
      congr 1
      push_cast
      omega

/-- Repeated `increment_enrollment`: the first `free` calls return, the others throw. -/
theorem increment_calls_spec : ∀ (n : Nat) (c : Course) (free : Nat),
    INT_MIN ≤ c.enrolled_students → c.capacity ≤ INT_MAX →
    c.enrolled_students + free = c.capacity →
    increment_calls n c =
      (List.replicate (min free n) true ++ List.replicate (n - free) false,
       { c with enrolled_students := c.enrolled_students + (min free n : Nat) }) := by
  intro n
  induction n with
  | zero => intro c free _ _ _; simp [increment_calls]
  | succ n ih =>
    intro c free h0 hcap hfree
    unfold increment_calls
    cases free with
    | zero =>
      rw [increment_enrollment_full c (by omega)]
      simp only
      rw [ih c 0 h0 hcap hfree]
      simp [List.replicate_succ]
    | succ free =>
      rw [increment_enrollment_free c (by omega) h0 hcap]
      simp only
      rw [ih { c with enrolled_students := c.enrolled_students + 1 } free
        (by simp only; omega) hcap (by simp only; omega)]
      simp only [Nat.succ_min_succ, List.replicate_succ, List.cons_append,
        Nat.succ_sub_succ, Prod.mk.injEq, true_and]
      congr 1
      push_cast
      omega

/-- C4: on a fresh course of capacity `C`, when `n > C` students not yet in the course call
`enroll(course)` in turn, exactly the first `C` calls succeed (the id is appended to that
student's list, the counter grows by one) and every later call is rejected as course-full;
the counter after `k` calls is `min k C`, so never above `C`, and is `C` at the end. The
same holds for `n > C` direct calls of `increment_enrollment`: the first `C` return, every
later one throws. -/
theorem capacity_enforced (C : Nat) (id : Int) (t : List Char) (ss : List Student)
    (hC : (C : Int) ≤ INT_MAX) (hn : C < ss.length)
    (hnew : ∀ s ∈ ss, id ∉ s.enrolled_course_ids) :
    (enroll_in_turn ss (Course.create id t C)).1
        = (ss.take C).map (fun s => (with_course id s, EnrollOutcome.enrolled))
          ++ (ss.drop C).map (fun s => (s, EnrollOutcome.course_full))
    ∧ (∀ k ≤ ss.length,
        (enroll_in_turn (ss.take k) (Course.create id t C)).2.enrolled_students
          = (min k C : Nat)
        ∧ (enroll_in_turn (ss.take k) (Course.create id t C)).2.enrolled_students ≤ C)
    ∧ (enroll_in_turn ss (Course.create id t C)).2.enrolled_students = C
    ∧ (∀ n, C < n →
        (increment_calls n (Course.create id t C)).1
          = List.replicate C true ++ List.replicate (n - C) false
        ∧ (increment_calls n (Course.create id t C)).2.enrolled_students = C)
    ∧ (∀ k, (increment_calls k (Course.create id t C)).2.enrolled_students
          = (min k C : Nat)) := by
  have h0 : INT_MIN ≤ (Course.create id t C).enrolled_students := by
    simp [Course.create, INT_MIN]
  have hfree : (Course.create id t C).enrolled_students + C = (Course.create id t C).capacity := by
    simp [Course.create]
  refine ⟨?_, ?_, ?_, ?_, ?_⟩
  · rw [enroll_in_turn_spec ss _ C h0 hC hfree hnew]
    rfl
  · intro k hk
    rw [enroll_in_turn_spec (ss.take k) _ C h0 hC hfree
      (fun s hs => hnew s (List.mem_of_mem_take hs))]
    simp only [Course.create, List.length_take, zero_add]
    have e : min C (min k ss.length) = min k C := by omega
    rw [e]
    exact ⟨rfl, by exact_mod_cast Nat.min_le_right k C⟩
  · rw [enroll_in_turn_spec ss _ C h0 hC hfree hnew]
    simp only [Course.create, zero_add]
    have e : min C ss.length = C := by omega
    rw [e]
  · intro n hn'
    rw [increment_calls_spec n _ C h0 hC hfree]
    have e : min C n = C := by omega
    simp [Course.create, e]
  · intro k
    rw [increment_calls_spec k _ C h0 hC hfree]
    simp [Course.create, Nat.min_comm]

/-- Witness of C4: three students and a course of capacity 2. -/
theorem capacity_enforced_witness :
    ((2 : Nat) : Int) ≤ INT_MAX
    ∧ (enroll_in_turn
        [Student.mk 5001 "Alice".toList 1001 [], Student.mk 5002 "Bob".toList 1002 [101],
          Student.mk 5003 "Carol".toList 1003 []]
        (Course.create 201 "CS".toList (2 : Nat))).1
      = [(Student.mk 5001 "Alice".toList 1001 [201], EnrollOutcome.enrolled),
          (Student.mk 5002 "Bob".toList 1002 [101, 201], EnrollOutcome.enrolled),
          (Student.mk 5003 "Carol".toList 1003 [], EnrollOutcome.course_full)] :=
  ⟨by decide,
    (capacity_enforced 2 201 "CS".toList
      [Student.mk 5001 "Alice".toList 1001 [], Student.mk 5002 "Bob".toList 1002 [101],
        Student.mk 5003 "Carol".toList 1003 []]
      (by decide) (by decide) (by decide)).1⟩

/-- C5: when the student is not enrolled in the course and the course's counter has reached
its capacity, `enroll(course)` is rejected as course-full and leaves the student (so its
course-id list) and the course (so its counter) unchanged. -/
theorem rejected_enrollment_changes_nothing (s : Student) (c : Course)
    (hs : c.course_id ∉ s.enrolled_course_ids) (hfull : c.capacity ≤ c.enrolled_students) :
    (s.enroll_course c).2.2 = EnrollOutcome.course_full
    ∧ (s.enroll_course c).1 = s
    ∧ (s.enroll_course c).1.enrolled_course_ids = s.enrolled_course_ids
    ∧ (s.enroll_course c).2.1 = c
    ∧ (s.enroll_course c).2.1.enrolled_students = c.enrolled_students := by
  rw [enroll_course_full s c hs hfull]
  exact ⟨rfl, rfl, rfl, rfl, rfl⟩

/-- Witness of C5: Bob and a full course of capacity 30. -/
theorem rejected_enrollment_changes_nothing_witness :
    (Student.mk 5002 "Bob".toList 1002 [101]).enroll_course (Course.mk 201 "CS".toList 30 30)
      = (Student.mk 5002 "Bob".toList 1002 [101], Course.mk 201 "CS".toList 30 30,
          EnrollOutcome.course_full) := by
  have h := rejected_enrollment_changes_nothing (Student.mk 5002 "Bob".toList 1002 [101])
    (Course.mk 201 "CS".toList 30 30) (by decide) (by decide)
  exact Prod.ext h.2.1 (Prod.ext h.2.2.2.1 h.1)

/-- C6: `enroll(int)` twice with one id gives the same student as once; `enroll(course)`
twice gives the same student and the same course as once; after two enrollments of a
student not enrolled before (by reference: in a course with free capacity) the id occurs
exactly once in the student's list, and by reference the counter has grown by exactly
one. -/
theorem enrollment_idempotent :
    (∀ (s : Student) (c : Int), (s.enroll c).enroll c = s.enroll c)
    ∧ (∀ (s : Student) (course : Course),
        ((s.enroll_course course).1.enroll_course (s.enroll_course course).2.1).1
          = (s.enroll_course course).1
        ∧ ((s.enroll_course course).1.enroll_course (s.enroll_course course).2.1).2.1
          = (s.enroll_course course).2.1)
    ∧ (∀ (s : Student) (c : Int), c ∉ s.enrolled_course_ids →
        ((s.enroll c).enroll c).enrolled_course_ids.count c = 1)
    ∧ (∀ (s : Student) (course : Course), course.course_id ∉ s.enrolled_course_ids →
        course.enrolled_students < course.capacity →
        INT_MIN ≤ course.enrolled_students → course.capacity ≤ INT_MAX →
        ((s.enroll_course course).1.enroll_course
            (s.enroll_course course).2.1).1.enrolled_course_ids.count course.course_id = 1
        ∧ ((s.enroll_course course).1.enroll_course
            (s.enroll_course course).2.1).2.1.enrolled_students
          = course.enrolled_students + 1) := by
  have already : ∀ (s : Student) (course : Course),
      course.course_id ∈ s.enrolled_course_ids →
      s.enroll_course course = (s, course, EnrollOutcome.already_enrolled) := by
    intro s course h
    unfold Student.enroll_course
    simp [h]
  refine ⟨?_, ?_, ?_, ?_⟩
  · intro s c
    by_cases h : c ∈ s.enrolled_course_ids
    · simp [Student.enroll, h]
    · simp [Student.enroll, h]
  · intro s course
    by_cases h : course.course_id ∈ s.enrolled_course_ids
    · rw [already s course h]
      simp only
      rw [already s course h]
      exact ⟨rfl, rfl⟩
    · by_cases hfull : course.capacity ≤ course.enrolled_students
      · rw [enroll_course_full s course h hfull]
        simp only
        rw [enroll_course_full s course h hfull]
        exact ⟨rfl, rfl⟩
      · have e : s.enroll_course course = (with_course course.course_id s,
            { course with enrolled_students := wrap32 (course.enrolled_students + 1) },
            EnrollOutcome.enrolled) := by
          unfold Student.enroll_course Course.increment_enrollment
          simp [h, hfull, with_course]
        rw [e]
        simp only
        rw [already _ _ (by simp [with_course])]
        exact ⟨rfl, rfl⟩
  · intro s c h
    simp [Student.enroll, h, List.count_eq_zero_of_not_mem]
  · intro s course h hfree h0 hcap
    rw [enroll_course_free s course h hfree h0 hcap]
    simp only
    rw [already _ _ (by simp [with_course])]
    simp [with_course, List.count_eq_zero_of_not_mem h]

/-- Witness of C6: enrolling Alice twice in course 101 by id. -/
theorem enrollment_idempotent_witness :
    ((101 : Int) ∉ (Student.mk 5001 "Alice".toList 1001 [7]).enrolled_course_ids)
    ∧ (((Student.mk 5001 "Alice".toList 1001 [7]).enroll 101).enroll 101).enrolled_course_ids.count
        101 = 1 :=
  ⟨by decide,
    enrollment_idempotent.2.2.1 (Student.mk 5001 "Alice".toList 1001 [7]) 101 (by decide)⟩

/-! ## Roll numbers -/

theorem create_all_append : ∀ (l1 l2 : List Creation) (c : Int),
    create_all (l1 ++ l2) c
      = ((create_all l1 c).1 ++ (create_all l2 (create_all l1 c).2).1,
         (create_all l2 (create_all l1 c).2).2) := by
  intro l1
  induction l1 with
  | nil => intro l2 c; rfl
  | cons op l1 ih =>
    intro l2 c
    rw [List.cons_append]
    simp only [create_all]
    rw [ih]
    rfl

theorem create_all_length : ∀ (ops : List Creation) (c : Int),
    (create_all ops c).1.length = ops.length := by
  intro ops
  induction ops with
  | nil => intro c; rfl
  | cons op ops ih => intro c; simp [create_all, ih]

theorem no_overflow_append : ∀ (l1 l2 : List Creation) (c : Int),
    no_overflow (l1 ++ l2) c = (no_overflow l1 c && no_overflow l2 (create_all l1 c).2) := by
  intro l1
  induction l1 with
  | nil => intro l2 c; simp [no_overflow, create_all]
  | cons op l1 ih =>
    intro l2 c
    rw [List.cons_append]
    simp only [no_overflow, create_all]
    rw [ih, Bool.and_assoc]

/-- One creation without overflow: the counter does not decrease, stays an `int` and
exceeds the roll number of the new student. -/
theorem run_step (op : Creation) (c : Int) (hc : InIntRange c)
    (hty : op.roll_in_range = true) (hfit : op.increment_fits c = true) :
    c ≤ (op.run c).2 ∧ InIntRange (op.run c).2
      ∧ (op.run c).1.roll_number < (op.run c).2 := by
  cases op with
  | auto n id =>
    simp only [Creation.increment_fits, decide_eq_true_eq] at hfit
    have hw : wrap32 (c + 1) = c + 1 :=
      wrap32_of_in_range _ (by unfold InIntRange INT_MIN INT_MAX at *; omega)
    simp only [Creation.run, Student.create, hw]
    unfold InIntRange INT_MIN INT_MAX at *
    omega
  | with_roll n id roll =>
    simp only [Creation.increment_fits, decide_eq_true_eq] at hfit
    simp only [Creation.roll_in_range, decide_eq_true_eq] at hty
    have hw : wrap32 (roll + 1) = roll + 1 :=
      wrap32_of_in_range _ (by unfold InIntRange INT_MIN INT_MAX at *; omega)
    simp only [Creation.run, Student.create_with_roll, hw]
    unfold InIntRange INT_MIN INT_MAX at *
    by_cases h : roll ≥ c
    · simp only [h, if_true]; omega
    · simp only [h, if_false]; omega

/-- A sequence of creations without overflow: the counter does not decrease, stays an
`int` and exceeds every roll number of the sequence. -/
theorem create_all_invariant : ∀ (ops : List Creation) (c : Int), InIntRange c →
    (∀ op ∈ ops, op.roll_in_range = true) → no_overflow ops c = true →
    c ≤ (create_all ops c).2 ∧ InIntRange (create_all ops c).2
      ∧ ∀ s ∈ (create_all ops c).1, s.roll_number < (create_all ops c).2 := by
  intro ops
  induction ops with
  | nil => intro c hc _ _; exact ⟨le_refl c, hc, by simp [create_all]⟩
  | cons op ops ih =>
    intro c hc hty hno
    simp only [no_overflow, Bool.and_eq_true] at hno
    obtain ⟨h1, h2, h3⟩ := run_step op c hc (hty op (List.mem_cons_self op ops)) hno.1
    obtain ⟨k1, k2, k3⟩ := ih (op.run c).2 h2
      (fun o ho => hty o (List.mem_cons_of_mem op ho)) hno.2
    simp only [create_all]
    refine ⟨le_trans h1 k1, k2, ?_⟩
    intro s hs
    rcases List.mem_cons.mp hs with hs | hs
    · rw [hs]; exact lt_of_lt_of_le h3 k1
    · exact k3 s hs

theorem take_hyps (ops : List Creation) (c : Int) (k : Nat)
    (hty : ∀ op ∈ ops, op.roll_in_range = true) (hno : no_overflow ops c = true) :
    (∀ op ∈ ops.take k, op.roll_in_range = true) ∧ no_overflow (ops.take k) c = true
      ∧ (∀ op ∈ ops.drop k, op.roll_in_range = true)
      ∧ no_overflow (ops.drop k) (create_all (ops.take k) c).2 = true := by
  have hno2 := hno
  rw [← List.take_append_drop k ops, no_overflow_append, Bool.and_eq_true] at hno2
  exact ⟨fun op h => hty op (List.mem_of_mem_take h), hno2.1,
    fun op h => hty op (List.mem_of_mem_drop h), hno2.2⟩

/-- The counter after a prefix of the creations is at most the counter after a longer one. -/
theorem counter_monotone (ops : List Creation) (c : Int) (hc : InIntRange c)
    (hty : ∀ op ∈ ops, op.roll_in_range = true) (hno : no_overflow ops c = true)
    (j k : Nat) (hjk : j ≤ k) :
    (create_all (ops.take j) c).2 ≤ (create_all (ops.take k) c).2 := by
  obtain ⟨t1, t2, _, _⟩ := take_hyps ops c k hty hno
  obtain ⟨u1, u2, u3, u4⟩ := take_hyps (ops.take k) c j t1 t2
  have hj : (ops.take k).take j = ops.take j := by
    rw [List.take_take, Nat.min_eq_left hjk]
  rw [hj] at u1 u2 u4
  have hin := (create_all_invariant _ c hc u1 u2).2.1
  have := (create_all_invariant _ _ hin u3 u4).1
  have e : create_all (ops.take k) c
      = create_all (ops.take j ++ (ops.take k).drop j) c := by
    rw [← hj, List.take_append_drop]
  rw [e, create_all_append]
  exact this

/-- A student made by the auto-assigning constructor has a roll number above that of
every student created before. -/
theorem auto_roll_gt_earlier (ops : List Creation) (c : Int) (hc : InIntRange c)
    (hty : ∀ op ∈ ops, op.roll_in_range = true) (hno : no_overflow ops c = true)
    (i j : Nat) (si sj : Student) (n : List Char) (id : Int) (hij : i < j)
    (hi : (create_all ops c).1[i]? = some si) (hj : (create_all ops c).1[j]? = some sj)
    (hop : ops[j]? = some (Creation.auto n id)) :
    si.roll_number < sj.roll_number := by
  obtain ⟨t1, t2, _, _⟩ := take_hyps ops c j hty hno
  obtain ⟨_, _, k3⟩ := create_all_invariant _ c hc t1 t2
  have hjlt : j < ops.length := by
    rcases Nat.lt_or_ge j ops.length with h | h
    · exact h
    · rw [List.getElem?_eq_none h] at hop; exact absurd hop (by simp)
  have hdrop : ops.drop j = Creation.auto n id :: ops.drop (j + 1) := by
    rw [List.drop_eq_getElem_cons hjlt]
    congr 1
    have := List.getElem?_eq_getElem hjlt
    rw [this] at hop
    exact Option.some.inj hop
  have e : create_all ops c
      = create_all (ops.take j ++ Creation.auto n id :: ops.drop (j + 1)) c := by
    rw [← hdrop, List.take_append_drop]
  have hlen : (create_all (ops.take j) c).1.length = j := by
    rw [create_all_length, List.length_take]; omega
  rw [e, create_all_append] at hi hj
  simp only at hi hj
  rw [List.getElem?_append_left (by omega)] at hi
  rw [List.getElem?_append_right (by omega), hlen, Nat.sub_self] at hj
  simp only [create_all, Creation.run, Student.create, List.getElem?_cons_zero,
    Option.some.injEq] at hj
  rw [← hj]
  exact k3 si (List.getElem?_mem hi)

/-- C9 as stated fails: the explicit roll number `INT_MAX` makes `roll + 1` wrap, so the
counter drops from 1001 to `INT_MIN`, is not above the roll number just supplied, and the
next auto-assigned roll number is below the earlier one. -/
theorem roll_counter_wraps_at_int_max :
    (create_all [Creation.with_roll "Zed".toList 9001 2147483647]
        Student.initial_next_roll_number).2 = -2147483648
    ∧ ¬ (Student.initial_next_roll_number
        ≤ (create_all [Creation.with_roll "Zed".toList 9001 2147483647]
            Student.initial_next_roll_number).2)
    ∧ ¬ (∀ s ∈ (create_all [Creation.with_roll "Zed".toList 9001 2147483647]
            Student.initial_next_roll_number).1,
          s.roll_number < (create_all [Creation.with_roll "Zed".toList 9001 2147483647]
            Student.initial_next_roll_number).2)
    ∧ (create_all [Creation.with_roll "Zed".toList 9001 2147483647,
          Creation.auto "Amy".toList 9002]
        Student.initial_next_roll_number).1.map Student.roll_number
      = [2147483647, -2147483648] := by
  decide

/-- C9, amended: over every sequence of creations by the two constructors in which the
supplied roll numbers are `int`s and no increment overflows, the counter never decreases
(after a prefix it is at most what it is after a longer prefix), after every prefix it is
strictly greater than every roll number assigned or supplied so far, and every
auto-assigned roll number is strictly greater than the roll number of every student
created before it. -/
theorem roll_counter_invariant (ops : List Creation) (c0 : Int) (hc0 : InIntRange c0)
    (hty : ∀ op ∈ ops, op.roll_in_range = true) (hno : no_overflow ops c0 = true) :
    (∀ j k, j ≤ k → (create_all (ops.take j) c0).2 ≤ (create_all (ops.take k) c0).2)
    ∧ (∀ k, ∀ s ∈ (create_all (ops.take k) c0).1,
        s.roll_number < (create_all (ops.take k) c0).2)
    ∧ (∀ (i j : Nat) (si sj : Student) (n : List Char) (id : Int), i < j →
        (create_all ops c0).1[i]? = some si → (create_all ops c0).1[j]? = some sj →
        ops[j]? = some (Creation.auto n id) → si.roll_number < sj.roll_number) := by
  refine ⟨?_, ?_, ?_⟩
  · intro j k hjk
    exact counter_monotone ops c0 hc0 hty hno j k hjk
  · intro k
    obtain ⟨t1, t2, _, _⟩ := take_hyps ops c0 k hty hno
    exact (create_all_invariant _ c0 hc0 t1 t2).2.2
  · intro i j si sj n id hij hi hj hop
    exact auto_roll_gt_earlier ops c0 hc0 hty hno i j si sj n id hij hi hj hop

/-- Witness of C9: an auto, an explicit and an auto creation from counter 1001. -/
theorem roll_counter_invariant_witness :
    (InIntRange Student.initial_next_roll_number
      ∧ (∀ op ∈ [Creation.auto "Alice".toList 5001, Creation.with_roll "Bob".toList 5002 2000,
            Creation.auto "Carol".toList 5003], op.roll_in_range = true)
      ∧ no_overflow [Creation.auto "Alice".toList 5001,
            Creation.with_roll "Bob".toList 5002 2000, Creation.auto "Carol".toList 5003]
          Student.initial_next_roll_number = true)
    ∧ ∀ s ∈ (create_all ([Creation.auto "Alice".toList 5001,
            Creation.with_roll "Bob".toList 5002 2000,
            Creation.auto "Carol".toList 5003].take 2) Student.initial_next_roll_number).1,
        s.roll_number < (create_all ([Creation.auto "Alice".toList 5001,
            Creation.with_roll "Bob".toList 5002 2000,
            Creation.auto "Carol".toList 5003].take 2) Student.initial_next_roll_number).2 :=
  ⟨by decide,
    (roll_counter_invariant
      [Creation.auto "Alice".toList 5001, Creation.with_roll "Bob".toList 5002 2000,
        Creation.auto "Carol".toList 5003]
      Student.initial_next_roll_number (by decide) (by decide) (by decide)).2.1 2⟩

/-- C10 as stated fails: the explicit-roll constructor takes any roll number, also one in
use, and `load_students` hands it the roll field of the line unchecked. -/
theorem duplicate_roll_numbers_accepted :
    (create_all [Creation.with_roll "Ann".toList 1 1500, Creation.with_roll "Ben".toList 2 1500]
        Student.initial_next_roll_number).1.map Student.roll_number = [1500, 1500]
    ∧ (create_all [Creation.auto "Ann".toList 1, Creation.with_roll "Ben".toList 2 1001]
        Student.initial_next_roll_number).1.map Student.roll_number = [1001, 1001]
    ∧ (load_students (some "1|Ann|1500\n2|Ben|1500\n".toList) []
        Student.initial_next_roll_number).records.map Student.roll_number = [1500, 1500] := by
  decide

theorem enroll_tokens_added : ∀ (toks : List (List Char)) (s0 s : Student),
    enroll_tokens toks s0 = LineOutcome.added s →
    s.user_id = s0.user_id ∧ s.name = s0.name ∧ s.roll_number = s0.roll_number := by
  intro toks
  induction toks with
  | nil =>
    intro s0 s h
    simp only [enroll_tokens, LineOutcome.added.injEq] at h
    rw [h]; exact ⟨rfl, rfl, rfl⟩
  | cons tok toks ih =>
    intro s0 s h
    unfold enroll_tokens at h
    cases hst : std_stoi tok with
    | ok v =>
      rw [hst] at h
      obtain ⟨h1, h2, h3⟩ := ih (s0.enroll v) s h
      obtain ⟨e1, e2, e3, _⟩ := enroll_fields s0 v
      exact ⟨h1.trans e1, h2.trans e2, h3.trans e3⟩
    | invalid_argument => rw [hst] at h; exact absurd h (by simp)
    | out_of_range => rw [hst] at h; exact absurd h (by simp)

/-- What a line is decoded to does not depend on the counter. -/
theorem load_line_outcome_counter_free (line : List Char) (c d : Int) :
    (load_line line c).1 = (load_line line d).1 := by
  unfold load_line
  split
  · rfl
  · split
    · split
      · rfl
      · rfl
      · split
        · rfl
        · rfl
        · split
          · split <;> rfl
          · rfl
    · rfl

/-- A record added for a line has the roll number `std::stoi` reads in the third field. -/
theorem load_line_added_roll (line : List Char) (c : Int) (s : Student)
    (h : (load_line line c).1 = LineOutcome.added s) :
    ∃ p0 p1 p2 more, split line '|' = p0 :: p1 :: p2 :: more
      ∧ std_stoi p2 = StoiResult.ok s.roll_number := by
  unfold load_line at h
  split at h
  · exact absurd h (by simp)
  · split at h
    · rename_i p0 p1 p2 more hsplit
      refine ⟨p0, p1, p2, more, hsplit, ?_⟩
      split at h
      · exact absurd h (by simp)
      · exact absurd h (by simp)
      · split at h
        · exact absurd h (by simp)
        · exact absurd h (by simp)
        · rename_i id _ roll hroll
          rw [hroll]
          congr 1
          split at h
          · split at h
            · simp only [Student.create_with_roll, LineOutcome.added.injEq] at h
              rw [← h]
            · exact ((enroll_tokens_added _ _ s h).2.2).symm
          · simp only [Student.create_with_roll, LineOutcome.added.injEq] at h
            rw [← h]
    · exact absurd h (by simp)

theorem parses_iff (s : List Char) : parses s = true ↔ std_stoi s = StoiResult.ok (stoi_value s) := by
  unfold parses stoi_value
  cases std_stoi s <;> simp

theorem enroll_tokens_parsed : ∀ (toks : List (List Char)) (s : Student),
    toks.all parses = true →
    enroll_tokens toks s = LineOutcome.added ((toks.map stoi_value).foldl Student.enroll s) := by
  intro toks
  induction toks with
  | nil => intro s _; rfl
  | cons tok toks ih =>
    intro s h
    simp only [List.all_cons, Bool.and_eq_true] at h
    simp only [enroll_tokens, (parses_iff tok).mp h.1, List.map_cons, List.foldl_cons]
    exact ih _ h.2

theorem split_ne_nil_line (line : List Char) (d : Char) (h : split line d ≠ []) :
    line ≠ [] := by
  intro e
  rw [e, split_nil] at h
  exact h rfl

/-- A kept line adds its record. -/
theorem load_line_kept (line : List Char) (c : Int) (h : line_kept line = true) :
    (load_line line c).1 = LineOutcome.added (record_of line) := by
  unfold line_kept at h
  split at h
  · rename_i p0 p1 p2 more hsplit
    simp only [Bool.and_eq_true] at h
    obtain ⟨⟨h0, h2⟩, htok⟩ := h
    have hline : line ≠ [] := split_ne_nil_line line '|' (by rw [hsplit]; simp)
    rw [load_line_parsed line p0 p1 p2 more c _ _ hline hsplit
      ((parses_iff p0).mp h0) ((parses_iff p2).mp h2)]
    have hrec : record_of line = Student.mk (stoi_value p0) p1 (stoi_value p2)
        (keepFirst ((course_tokens more).map stoi_value)) := by
      unfold record_of
      rw [hsplit]
    have hmatch : (match more.head? with
        | some p3 =>
          if p3.isEmpty then
            LineOutcome.added
              (Student.create_with_roll p1 (stoi_value p0) (stoi_value p2) c).1
          else enroll_tokens (split p3 ',')
              (Student.create_with_roll p1 (stoi_value p0) (stoi_value p2) c).1
        | none => LineOutcome.added
            (Student.create_with_roll p1 (stoi_value p0) (stoi_value p2) c).1)
        = enroll_tokens (course_tokens more)
            (Student.create_with_roll p1 (stoi_value p0) (stoi_value p2) c).1 := by
      unfold course_tokens
      cases more.head? with
      | none => rfl
      | some p3 =>
        by_cases he : p3.isEmpty = true
        · simp [he, enroll_tokens]
        · simp [he]
    simp only [hmatch]
    rw [enroll_tokens_parsed _ _ htok, foldl_enroll, hrec]
    simp [Student.create_with_roll]
  · exact absurd h (by simp)

/-- A dropped line adds nothing, throws nothing and leaves the counter as it is. -/
theorem load_line_dropped (line : List Char) (c : Int) (h : line_dropped line = true) :
    load_line line c = (LineOutcome.skipped, c) ∨ load_line line c = (LineOutcome.corrupt, c) := by
  unfold line_dropped at h
  unfold load_line
  by_cases he : line.isEmpty = true
  · left; simp [he]
  · simp only [he, Bool.false_eq_true, if_false]
    split at h
    · rename_i p0 p1 p2 more hsplit
      simp only [Bool.or_eq_true, Bool.and_eq_true, beq_iff_eq] at h
      right
      rcases h with h | ⟨h0, h2⟩
      · simp [h]
      · rw [(parses_iff p0).mp h0]
        simp [h2]
    · left
      rfl

theorem dropped_not_kept (line : List Char) (h : line_dropped line = true) :
    line_kept line = false := by
  unfold line_dropped at h
  unfold line_kept
  split at h
  · rename_i p0 p1 p2 more hsplit
    simp only [Bool.or_eq_true, Bool.and_eq_true, beq_iff_eq] at h
    rcases h with h | ⟨_, h2⟩
    · simp [parses, h]
    · simp [parses, h2]
  · rfl

/-- Over kept and dropped lines the loop returns and appends the records of the kept
lines in order. -/
theorem load_lines_kept_dropped : ∀ (lines : List (List Char)) (records : List Student)
    (c : Int), (∀ line ∈ lines, line_kept line = true ∨ line_dropped line = true) →
    (load_lines lines records c).completion = Completion.returned
    ∧ (load_lines lines records c).records
      = records ++ (lines.filter line_kept).map record_of := by
  intro lines
  induction lines with
  | nil => intro records c _; simp [load_lines]
  | cons line lines ih =>
    intro records c h
    have hrest : ∀ l ∈ lines, line_kept l = true ∨ line_dropped l = true :=
      fun l hl => h l (List.mem_cons_of_mem line hl)
    by_cases hk : line_kept line = true
    · have h1 := load_line_kept line c hk
      rcases hl : load_line line c with ⟨out, c1⟩
      rw [hl] at h1
      simp only at h1
      subst h1
      simp only [load_lines, hl]
      obtain ⟨i1, i2⟩ := ih (add_record records (record_of line)) c1 hrest
      refine ⟨i1, ?_⟩
      rw [i2]
      simp [add_record, List.filter_cons, hk]
    · have hd : line_dropped line = true := by
        rcases h line (List.mem_cons_self line lines) with h | h
        · exact absurd h hk
        · exact h
      obtain ⟨i1, i2⟩ := ih records c hrest
      rcases load_line_dropped line c hd with hl | hl
      · simp only [load_lines, hl]
        refine ⟨i1, ?_⟩
        rw [i2]
        simp [List.filter_cons, hk]
      · simp only [load_lines, hl]
        refine ⟨i1, ?_⟩
        rw [i2]
        simp [List.filter_cons, hk]

theorem split_two_lines (a b : List Char) (ha : newline ∉ a) (hb : newline ∉ b) :
    split (a ++ [newline] ++ b ++ [newline]) newline = [a, b] := by
  have e : a ++ [newline] ++ b ++ [newline] = a ++ newline :: (b ++ newline :: []) := by
    simp [List.append_assoc]
  rw [e, split_append_cons _ a _ ha, split_append_cons _ b _ hb, split_nil]

/-! ## Decimal numerals -/

/-- Reading a decimal numeral in `int` range with `std::stoi` gives the integer it
denotes. -/
theorem std_stoi_numeral (s : List Char) (h : is_int_numeral s = true) :
    std_stoi s = StoiResult.ok (numeral_value s) := by
  unfold is_int_numeral at h
  simp only [Bool.and_eq_true, decide_eq_true_eq] at h
  obtain ⟨hnum, hrange⟩ := h
  cases s with
  | nil => exact absurd hnum (by simp [is_numeral])
  | cons c t =>
    unfold is_numeral at hnum
    unfold numeral_value at hrange ⊢
    have hr : ∀ v : Int, InIntRange v → ¬ (v < INT_MIN ∨ INT_MAX < v) := by
      intro v hv
      unfold InIntRange at hv
      omega
    by_cases hc : c = '-'
    · simp only [hc, if_true, Bool.and_eq_true, Bool.not_eq_true', List.all_eq_true] at hnum hrange ⊢
      obtain ⟨hne, hdig⟩ := hnum
      have hdrop : ('-' :: t).dropWhile isspace = '-' :: t := by
        rw [List.dropWhile_cons_of_neg (by decide)]
      unfold std_stoi
      simp only [hdrop, dropSign, true_or, if_true, takeWhile_all _ _ hdig, hne,
        List.head?_cons, Bool.false_eq_true, if_false]
      simp [hr _ hrange]
    · simp only [hc, if_false, List.all_eq_true] at hnum hrange ⊢
      have hcd : c.isDigit = true := hnum c (List.mem_cons_self c t)
      obtain ⟨hsp, _, hp, _⟩ := isDigit_not_special c hcd
      have hdrop : (c :: t).dropWhile isspace = c :: t := by
        rw [List.dropWhile_cons_of_neg (by simp [hsp])]
      have hsign : dropSign (c :: t) = c :: t := by simp [dropSign, hc, hp]
      have hhead : ¬ ((c :: t).head? = some '-') := by simp [hc]
      have hemp : (c :: t).isEmpty = false := rfl
      unfold std_stoi
      simp only [hdrop, hsign, takeWhile_all _ _ hnum, hemp, hhead, Bool.false_eq_true,
        if_false]
      simp [hr _ hrange]

theorem numeral_chars (s : List Char) (h : is_numeral s = true) :
    s ≠ [] ∧ ∀ c ∈ s, c = '-' ∨ c.isDigit = true := by
  cases s with
  | nil => exact absurd h (by simp [is_numeral])
  | cons c t =>
    refine ⟨by simp, ?_⟩
    unfold is_numeral at h
    by_cases hc : c = '-'
    · simp only [hc, if_true, Bool.and_eq_true, List.all_eq_true] at h
      intro x hx
      rcases List.mem_cons.mp hx with hx | hx
      · exact Or.inl (hx.trans hc)
      · exact Or.inr (h.2 x hx)
    · simp only [hc, if_false, List.all_eq_true] at h
      exact fun x hx => Or.inr (h x hx)

theorem numeral_no_delim (s : List Char) (h : is_numeral s = true) :
    '|' ∉ s ∧ ',' ∉ s := by
  have hch := (numeral_chars s h).2
  refine ⟨?_, ?_⟩ <;>
  · intro hmem
    rcases hch _ hmem with hc | hc
    · revert hc; decide
    · have := isDigit_not_special _ hc
      simp at this

/-- What `std::to_string` writes is a decimal numeral that denotes the number written. -/
theorem std_to_string_numeral (v : Int) :
    is_numeral (std_to_string v) = true ∧ numeral_value (std_to_string v) = v := by
  obtain ⟨hdig, hval, hne⟩ := nat_to_string_spec v.natAbs
  unfold std_to_string
  by_cases hneg : v < 0
  · simp only [hneg, if_true]
    constructor
    · simp only [is_numeral, if_true, Bool.and_eq_true, Bool.not_eq_true', List.all_eq_true]
      refine ⟨?_, hdig⟩
      cases hn : nat_to_string v.natAbs with
      | nil => exact absurd hn hne
      | cons c t => rfl
    · simp only [numeral_value, if_true, hval]
      omega
  · simp only [hneg, if_false]
    obtain ⟨c, t, hct⟩ := List.exists_cons_of_ne_nil hne
    have hc : c.isDigit = true := hdig c (by rw [hct]; exact List.mem_cons_self c t)
    obtain ⟨_, hm, _⟩ := isDigit_not_special c hc
    rw [hct] at hdig hval
    rw [hct]
    constructor
    · simp only [is_numeral, hm, if_false, List.all_eq_true]
      exact hdig
    · simp only [numeral_value, hm, if_false, hval]
      omega

theorem numeral_parses (s : List Char) (h : is_int_numeral s = true) :
    parses s = true ∧ stoi_value s = numeral_value s := by
  have := std_stoi_numeral s h
  simp [parses, stoi_value, this]

theorem int_numeral_is_numeral (s : List Char) (h : is_int_numeral s = true) :
    is_numeral s = true := by
  unfold is_int_numeral at h
  simp only [Bool.and_eq_true] at h
  exact h.1

/-- A line that is well-formed in the wording of the claim is a kept line. -/
theorem well_formed_kept (line : List Char) (h : stated_well_formed line = true) :
    line_kept line = true := by
  unfold stated_well_formed at h
  unfold line_kept
  split at h
  · rename_i p0 p1 p2 more hsplit
    simp only [Bool.and_eq_true, List.all_eq_true] at h ⊢
    exact ⟨⟨(numeral_parses p0 h.1.1).1, (numeral_parses p2 h.1.2).1⟩,
      fun t ht => (numeral_parses t (h.2 t ht)).1⟩
  · exact absurd h (by simp)

/-! ## Lines skipped for a course-id token -/

/-- Once the id and the roll field parse, the student is constructed and the course-id
tokens decide how the line ends. -/
theorem load_line_tokens (line p0 p1 p2 : List Char) (more : List (List Char))
    (counter id roll : Int) (hsplit : split line '|' = p0 :: p1 :: p2 :: more)
    (h0 : std_stoi p0 = StoiResult.ok id) (h2 : std_stoi p2 = StoiResult.ok roll) :
    load_line line counter =
      (enroll_tokens (course_tokens more) (Student.create_with_roll p1 id roll counter).1,
        (Student.create_with_roll p1 id roll counter).2) := by
  have hline : line ≠ [] := split_ne_nil_line line '|' (by rw [hsplit]; simp)
  rw [load_line_parsed line p0 p1 p2 more counter id roll hline hsplit h0 h2]
  unfold course_tokens
  cases more.head? with
  | none => rfl
  | some p3 =>
    by_cases he : p3.isEmpty = true
    · simp [he, enroll_tokens]
    · simp [he]

theorem first_failure_none : ∀ (toks : List (List Char)),
    first_failure toks = none → toks.all parses = true := by
  intro toks
  induction toks with
  | nil => intro _; rfl
  | cons tok toks ih =>
    intro h
    unfold first_failure at h
    cases hst : std_stoi tok with
    | ok v =>
      rw [hst] at h
      simp only [List.all_cons, Bool.and_eq_true]
      exact ⟨by simp [parses, hst], ih h⟩
    | invalid_argument => rw [hst] at h; exact absurd h (by simp)
    | out_of_range => rw [hst] at h; exact absurd h (by simp)

theorem all_parses_first_failure : ∀ (toks : List (List Char)),
    toks.all parses = true → first_failure toks = none := by
  intro toks
  induction toks with
  | nil => intro _; rfl
  | cons tok toks ih =>
    intro h
    simp only [List.all_cons, Bool.and_eq_true] at h
    unfold first_failure
    rw [(parses_iff tok).mp h.1]
    exact ih h.2

/-- The token loop ends in the handler when the first unreadable token holds no number,
and with an escaping exception when it holds a number too large. -/
theorem enroll_tokens_failure : ∀ (toks : List (List Char)) (s : Student),
    (first_failure toks = some StoiResult.invalid_argument →
      enroll_tokens toks s = LineOutcome.corrupt)
    ∧ (first_failure toks = some StoiResult.out_of_range →
      enroll_tokens toks s = LineOutcome.escaped)
    ∧ (first_failure toks = some StoiResult.invalid_argument
      ∨ first_failure toks = some StoiResult.out_of_range ∨ first_failure toks = none) := by
  intro toks
  induction toks with
  | nil => intro s; simp [first_failure]
  | cons tok toks ih =>
    intro s
    unfold first_failure enroll_tokens
    cases hst : std_stoi tok with
    | ok v => exact ih (s.enroll v)
    | invalid_argument => simp
    | out_of_range => simp

/-- A line skipped for a course-id token ends in the handler. -/
theorem load_line_bad_token (line : List Char) (c : Int) (h : line_bad_token line = true) :
    (load_line line c).1 = LineOutcome.corrupt := by
  unfold line_bad_token at h
  split at h
  · rename_i p0 p1 p2 more hsplit
    simp only [Bool.and_eq_true, beq_iff_eq] at h
    obtain ⟨⟨h0, h2⟩, htok⟩ := h
    rw [load_line_tokens line p0 p1 p2 more c _ _ hsplit
      ((parses_iff p0).mp h0) ((parses_iff p2).mp h2)]
    exact (enroll_tokens_failure _ _).1 htok
  · exact absurd h (by simp)

theorem bad_token_not_kept (line : List Char) (h : line_bad_token line = true) :
    line_kept line = false := by
  unfold line_bad_token at h
  unfold line_kept
  split at h
  · rename_i p0 p1 p2 more hsplit
    simp only [Bool.and_eq_true, beq_iff_eq] at h
    cases hall : (course_tokens more).all parses with
    | false => simp
    | true =>
      rw [all_parses_first_failure _ hall] at h
      exact absurd h.2 (by simp)
  · rfl

/-- Every line on which the load does not end with an escaping exception is kept-class,
dropped-class or skipped for a course-id token. -/
theorem line_classes_cover (line : List Char) (c : Int)
    (h : (load_line line c).1 ≠ LineOutcome.escaped) :
    line_kept line = true ∨ line_dropped line = true ∨ line_bad_token line = true := by
  cases hsplit : split line '|' with
  | nil => right; left; simp [line_dropped, hsplit]
  | cons p0 r1 =>
    cases r1 with
    | nil => right; left; simp [line_dropped, hsplit]
    | cons p1 r2 =>
      cases r2 with
      | nil => right; left; simp [line_dropped, hsplit]
      | cons p2 more =>
        have hline : line ≠ [] := split_ne_nil_line line '|' (by rw [hsplit]; simp)
        have he : line.isEmpty = false := by
          cases line with
          | nil => exact absurd rfl hline
          | cons x t => rfl
        cases h0 : std_stoi p0 with
        | invalid_argument => right; left; simp [line_dropped, hsplit, h0]
        | out_of_range =>
          exfalso; apply h
          unfold load_line
          simp [he, hsplit, h0]
        | ok id =>
          have hp0 : parses p0 = true := by simp [parses, h0]
          cases h2 : std_stoi p2 with
          | invalid_argument => right; left; simp [line_dropped, hsplit, h0, h2, hp0]
          | out_of_range =>
            exfalso; apply h
            unfold load_line
            simp [he, hsplit, h0, h2]
          | ok roll =>
            have hp2 : parses p2 = true := by simp [parses, h2]
            rw [load_line_tokens line p0 p1 p2 more c id roll hsplit h0 h2] at h
            obtain ⟨_, f2, f3⟩ := enroll_tokens_failure (course_tokens more)
              (Student.create_with_roll p1 id roll c).1
            rcases f3 with f | f | f
            · right; right
              simp [line_bad_token, hsplit, hp0, hp2, f]
            · exact absurd (f2 f) h
            · left
              simp [line_kept, hsplit, hp0, hp2, first_failure_none _ f]

/-- Over kept lines and lines that are dropped or skipped for a course-id token the loop
returns and appends the records of the kept lines in order. -/
theorem load_lines_classes : ∀ (lines : List (List Char)) (records : List Student)
    (c : Int),
    (∀ line ∈ lines,
      line_kept line = true ∨ line_dropped line = true ∨ line_bad_token line = true) →
    (load_lines lines records c).completion = Completion.returned
    ∧ (load_lines lines records c).records
      = records ++ (lines.filter line_kept).map record_of := by
  intro lines
  induction lines with
  | nil => intro records c _; simp [load_lines]
  | cons line lines ih =>
    intro records c h
    have hrest : ∀ l ∈ lines,
        line_kept l = true ∨ line_dropped l = true ∨ line_bad_token l = true :=
      fun l hl => h l (List.mem_cons_of_mem line hl)
    rcases hl : load_line line c with ⟨out, c1⟩
    rcases h line (List.mem_cons_self line lines) with hk | hd | hb
    · have h1 := load_line_kept line c hk
      rw [hl] at h1
      simp only at h1
      subst h1
      simp only [load_lines, hl]
      obtain ⟨i1, i2⟩ := ih (add_record records (record_of line)) c1 hrest
      refine ⟨i1, ?_⟩
      rw [i2]
      simp [add_record, List.filter_cons, hk]
    · have hk := dropped_not_kept line hd
      obtain ⟨i1, i2⟩ := ih records c1 hrest
      rcases load_line_dropped line c hd with h1 | h1
      · rw [hl] at h1
        simp only [Prod.mk.injEq] at h1
        obtain ⟨e, _⟩ := h1
        subst e
        simp only [load_lines, hl]
        refine ⟨i1, ?_⟩
        rw [i2]
        simp [List.filter_cons, hk]
      · rw [hl] at h1
        simp only [Prod.mk.injEq] at h1
        obtain ⟨e, _⟩ := h1
        subst e
        simp only [load_lines, hl]
        refine ⟨i1, ?_⟩
        rw [i2]
        simp [List.filter_cons, hk]
    · have hk := bad_token_not_kept line hb
      have h1 := load_line_bad_token line c hb
      rw [hl] at h1
      simp only at h1
      subst h1
      obtain ⟨i1, i2⟩ := ih records c1 hrest
      simp only [load_lines, hl]
      refine ⟨i1, ?_⟩
      rw [i2]
      simp [List.filter_cons, hk]

/-! ## Which lines a load keeps -/

/-- C3 as stated fails. The id field `12abc` is not numeric, yet `std::stoi` reads 12 from
it and the line gives a record, in a file whose lines are all of the kinds the claim lists
and none of which is well-formed. Apart from that, a line with a roll field that is not
numeric and an id field too large for `int` ends the load with `std::out_of_range` before
the well-formed line after it is read. -/
theorem prefix_numeric_line_is_kept :
    ((∀ line ∈ split "12abc|Bob|1001\n".toList newline,
        stated_well_formed line = true ∨ stated_other line = true)
      ∧ (split "12abc|Bob|1001\n".toList newline).filter stated_well_formed = []
      ∧ load_students (some "12abc|Bob|1001\n".toList) [] Student.initial_next_roll_number
        = LoadResult.mk Completion.returned [Student.mk 12 "Bob".toList 1001 []] 1002)
    ∧ ((∀ line ∈ split "99999999999|Eve|abc\n5001|Alice Smith|1001\n".toList newline,
        stated_well_formed line = true ∨ stated_other line = true)
      ∧ (split "99999999999|Eve|abc\n5001|Alice Smith|1001\n".toList newline).filter
          stated_well_formed = ["5001|Alice Smith|1001".toList]
      ∧ load_students (some "99999999999|Eve|abc\n5001|Alice Smith|1001\n".toList) []
          Student.initial_next_roll_number
        = LoadResult.mk Completion.threw_out_of_range [] 1001) := by
  decide

/-- C3, amended: for every file in which no line makes `std::stoi` raise
`std::out_of_range`, that is in which each line is either kept-class (at least three
fields, and `std::stoi` succeeds on the id field, the roll field and every course-id
token: each starts, after optional white space and sign, with digits whose value is an
`int`, whatever follows the digits), dropped-class (empty, fewer than three fields, an id
field in which `std::stoi` finds no number, or an id field that parses and a roll field in
which it finds no number) or skipped for a course-id token (id and roll fields parse and
the first course-id token `std::stoi` cannot read holds no number), `load_students`
returns and the collection holds exactly one record per kept-class line, in the order of
those lines, and nothing else (what the destination held before is gone). In particular a
file with one kept-class line and one line of the other two classes, in either order,
yields exactly the record of the kept-class line. Every line that is well-formed in the
wording of the claim is kept-class, and the three classes cover every line on which the
load does not end with an escaping exception. -/
theorem load_keeps_parsed_lines :
    (∀ (text : List Char) (student_list : List Student) (c : Int),
      (∀ line ∈ split text newline,
        line_kept line = true ∨ line_dropped line = true ∨ line_bad_token line = true) →
      (load_students (some text) student_list c).completion = Completion.returned
      ∧ (load_students (some text) student_list c).records
        = ((split text newline).filter line_kept).map record_of)
    ∧ (∀ (good bad : List Char) (student_list : List Student) (c : Int),
      newline ∉ good → newline ∉ bad → line_kept good = true →
      (line_dropped bad = true ∨ line_bad_token bad = true) →
      (load_students (some (good ++ [newline] ++ bad ++ [newline])) student_list c).records
        = [record_of good]
      ∧ (load_students (some (bad ++ [newline] ++ good ++ [newline])) student_list c).records
        = [record_of good])
    ∧ (∀ line : List Char, stated_well_formed line = true → line_kept line = true)
    ∧ (∀ (line : List Char) (c : Int), (load_line line c).1 ≠ LineOutcome.escaped →
      line_kept line = true ∨ line_dropped line = true ∨ line_bad_token line = true) := by
  have main : ∀ (text : List Char) (student_list : List Student) (c : Int),
      (∀ line ∈ split text newline,
        line_kept line = true ∨ line_dropped line = true ∨ line_bad_token line = true) →
      (load_students (some text) student_list c).completion = Completion.returned
      ∧ (load_students (some text) student_list c).records
        = ((split text newline).filter line_kept).map record_of := by
    intro text student_list c h
    unfold load_students
    simp only [List.take_zero]
    have := load_lines_classes (split text newline) [] c h
    simpa using this
  refine ⟨main, ?_, well_formed_kept, line_classes_cover⟩
  intro good bad student_list c hg hb hkept hbad
  have hbk : line_kept bad = false := by
    rcases hbad with h | h
    · exact dropped_not_kept bad h
    · exact bad_token_not_kept bad h
  constructor
  · have h := (main (good ++ [newline] ++ bad ++ [newline]) student_list c (by
      rw [split_two_lines good bad hg hb]
      intro line hl
      simp only [List.mem_cons, List.mem_singleton, List.not_mem_nil, or_false] at hl
      rcases hl with hl | hl
      · rw [hl]; exact Or.inl hkept
      · rw [hl]; exact Or.inr hbad)).2
    rw [h, split_two_lines good bad hg hb]
    simp [List.filter_cons, hkept, hbk]
  · have h := (main (bad ++ [newline] ++ good ++ [newline]) student_list c (by
      rw [split_two_lines bad good hb hg]
      intro line hl
      simp only [List.mem_cons, List.mem_singleton, List.not_mem_nil, or_false] at hl
      rcases hl with hl | hl
      · rw [hl]; exact Or.inr hbad
      · rw [hl]; exact Or.inl hkept)).2
    rw [h, split_two_lines bad good hb hg]
    simp [List.filter_cons, hkept, hbk]

/-- Witness of C3: a file with two kept lines, an empty line, a line without a number in
the id field, a line of two fields and a line skipped for its course-id token. -/
theorem load_keeps_parsed_lines_witness :
    (∀ line ∈ split
          "5001|Alice Smith|1001|101,102\n\nabc|Bob|1002\n7|x\n12abc|Cy|9 9\n12abc|Bob|1001|x\n".toList
          newline,
        line_kept line = true ∨ line_dropped line = true ∨ line_bad_token line = true)
    ∧ (load_students
        (some
          "5001|Alice Smith|1001|101,102\n\nabc|Bob|1002\n7|x\n12abc|Cy|9 9\n12abc|Bob|1001|x\n".toList)
        [Student.mk 1 "Old".toList 1 []] Student.initial_next_roll_number).records
      = ((split
          "5001|Alice Smith|1001|101,102\n\nabc|Bob|1002\n7|x\n12abc|Cy|9 9\n12abc|Bob|1001|x\n".toList
          newline).filter line_kept).map record_of
    ∧ ((split
          "5001|Alice Smith|1001|101,102\n\nabc|Bob|1002\n7|x\n12abc|Cy|9 9\n12abc|Bob|1001|x\n".toList
          newline).filter line_kept).map record_of
      = [Student.mk 5001 "Alice Smith".toList 1001 [101, 102],
          Student.mk 12 "Cy".toList 9 []] :=
  ⟨by decide,
    (load_keeps_parsed_lines.1
      "5001|Alice Smith|1001|101,102\n\nabc|Bob|1002\n7|x\n12abc|Cy|9 9\n12abc|Bob|1001|x\n".toList
      [Student.mk 1 "Old".toList 1 []] Student.initial_next_roll_number (by decide)).2,
    by decide⟩

/-- Decoding `a|n|b|t1,...,tk` where `a`, `b` and the `tj` are decimal numerals. -/
theorem load_line_numerals (a n b : List Char) (toks : List (List Char)) (c : Int)
    (ha : is_int_numeral a = true) (hb : is_int_numeral b = true)
    (htoks : ∀ t ∈ toks, is_int_numeral t = true) (hn : '|' ∉ n) :
    (load_line (a ++ ['|'] ++ n ++ ['|'] ++ b ++ ['|'] ++ joinWith ',' toks) c).1
      = LineOutcome.added (Student.mk (numeral_value a) n (numeral_value b)
          (keepFirst (toks.map numeral_value))) := by
  have hj : '|' ∉ joinWith ',' toks := by
    intro hmem
    rcases mem_joinWith ',' _ _ hmem with h | ⟨t, ht, hc⟩
    · revert h; decide
    · exact (numeral_no_delim t (int_numeral_is_numeral t (htoks t ht))).1 hc
  have hline : a ++ ['|'] ++ n ++ ['|'] ++ b ++ ['|'] ++ joinWith ',' toks ≠ [] := by simp
  rw [load_line_parsed _ _ _ _ _ c _ _ hline
    (split_record_line a n b _ (numeral_no_delim a (int_numeral_is_numeral a ha)).1 hn
      (numeral_no_delim b (int_numeral_is_numeral b hb)).1 hj)
    (std_stoi_numeral a ha) (std_stoi_numeral b hb)]
  cases toks with
  | nil => simp [joinWith, keepFirst, Student.create_with_roll]
  | cons t toks =>
    have ht := htoks t (List.mem_cons_self t toks)
    have hne : joinWith ',' (t :: toks) ≠ [] :=
      joinWith_ne_nil ',' _ _ (numeral_chars t (int_numeral_is_numeral t ht)).1
    have hje : (joinWith ',' (t :: toks)).isEmpty = false := by
      cases hk : joinWith ',' (t :: toks) with
      | nil => exact absurd hk hne
      | cons x r => rfl
    have hsp : split (joinWith ',' (t :: toks)) ',' = t :: toks := by
      apply split_joinWith
      intro u hu
      have hu1 := int_numeral_is_numeral u (htoks u hu)
      exact ⟨(numeral_no_delim u hu1).2, (numeral_chars u hu1).1⟩
    have hall : (t :: toks).all parses = true := by
      rw [List.all_eq_true]
      exact fun u hu => (numeral_parses u (htoks u hu)).1
    have hmap : (t :: toks).map stoi_value = (t :: toks).map numeral_value :=
      List.map_congr_left (fun u hu => (numeral_parses u (htoks u hu)).2)
    rw [if_neg hne]
    simp only [List.head?_cons, hje, hsp, Bool.false_eq_true, if_false]
    rw [enroll_tokens_parsed _ _ hall, foldl_enroll, hmap]
    simp [Student.create_with_roll]

theorem load_line_numerals_three (a n b : List Char) (c : Int)
    (ha : is_int_numeral a = true) (hb : is_int_numeral b = true) (hn : '|' ∉ n) :
    (load_line (a ++ ['|'] ++ n ++ ['|'] ++ b) c).1
      = LineOutcome.added (Student.mk (numeral_value a) n (numeral_value b) []) := by
  have hline : a ++ ['|'] ++ n ++ ['|'] ++ b ≠ [] := by simp
  rw [load_line_parsed _ _ _ _ _ c _ _ hline
    (split_three_fields a n b (numeral_no_delim a (int_numeral_is_numeral a ha)).1 hn
      (numeral_no_delim b (int_numeral_is_numeral b hb)).1
      (numeral_chars b (int_numeral_is_numeral b hb)).1)
    (std_stoi_numeral a ha) (std_stoi_numeral b hb)]
  simp [Student.create_with_roll]

/-- C7: a line `i|n|r|c1,...,ck` (`k ≥ 0`, `n` without `|`, the fields for `i`, `r` and each
`cj` decimal numerals in `int` range) is decoded to the record with identifier `i`, name
`n`, roll number `r` and the course ids `c1..ck` with later repetitions removed in
first-occurrence order; with three fields only, or an empty fourth field, the course list
is empty. The decimal notation of every `int` is such a numeral and denotes it.
`5001|Alice Smith|1001|101,102` gives id 5001, name `Alice Smith`, roll 1001, courses
`[101, 102]`. -/
theorem decode_well_formed_line :
    (∀ (a n b : List Char) (toks : List (List Char)) (counter : Int),
      is_int_numeral a = true → is_int_numeral b = true →
      (∀ t ∈ toks, is_int_numeral t = true) → '|' ∉ n →
      (load_line (a ++ ['|'] ++ n ++ ['|'] ++ b ++ ['|'] ++ joinWith ',' toks) counter).1
        = LineOutcome.added (Student.mk (numeral_value a) n (numeral_value b)
            (keepFirst (toks.map numeral_value)))
      ∧ (load_line (a ++ ['|'] ++ n ++ ['|'] ++ b) counter).1
        = LineOutcome.added (Student.mk (numeral_value a) n (numeral_value b) [])
      ∧ (load_line (a ++ ['|'] ++ n ++ ['|'] ++ b ++ ['|']) counter).1
        = LineOutcome.added (Student.mk (numeral_value a) n (numeral_value b) []))
    ∧ (∀ v : Int, InIntRange v →
        is_int_numeral (decimal v) = true ∧ numeral_value (decimal v) = v)
    ∧ (∀ counter : Int, (load_line "5001|Alice Smith|1001|101,102".toList counter).1
        = LineOutcome.added (Student.mk 5001 "Alice Smith".toList 1001 [101, 102])) := by
  refine ⟨?_, ?_, ?_⟩
  · intro a n b toks counter ha hb htoks hn
    refine ⟨load_line_numerals a n b toks counter ha hb htoks hn,
      load_line_numerals_three a n b counter ha hb hn, ?_⟩
    have := load_line_numerals a n b [] counter ha hb (by simp) hn
    simpa [joinWith, keepFirst] using this
  · intro v hv
    rw [← std_to_string_eq_decimal]
    obtain ⟨h1, h2⟩ := std_to_string_numeral v
    refine ⟨?_, h2⟩
    unfold is_int_numeral
    rw [h1, h2]
    simp [hv]
  · intro counter
    have e : "5001|Alice Smith|1001|101,102".toList
        = "5001".toList ++ ['|'] ++ "Alice Smith".toList ++ ['|'] ++ "1001".toList
          ++ ['|'] ++ joinWith ',' ["101".toList, "102".toList] := by decide
    rw [e, load_line_numerals _ _ _ _ counter (by decide) (by decide) (by decide)
      (by decide)]
    decide

/-- Witness of C7: a line with a zero-padded id, a name with a comma, the roll number
`INT_MIN` and a repeated course id. -/
theorem decode_well_formed_line_witness :
    (is_int_numeral "007".toList = true ∧ is_int_numeral "-2147483648".toList = true
      ∧ (∀ t ∈ ["101".toList, "-3".toList, "101".toList], is_int_numeral t = true)
      ∧ '|' ∉ "Bob, Jr.".toList)
    ∧ (load_line ("007".toList ++ ['|'] ++ "Bob, Jr.".toList ++ ['|']
          ++ "-2147483648".toList ++ ['|']
          ++ joinWith ',' ["101".toList, "-3".toList, "101".toList]) 1001).1
        = LineOutcome.added (Student.mk (numeral_value "007".toList) "Bob, Jr.".toList
            (numeral_value "-2147483648".toList)
            (keepFirst (["101".toList, "-3".toList, "101".toList].map numeral_value))) :=
  ⟨by decide,
    (decode_well_formed_line.1 "007".toList "Bob, Jr.".toList "-2147483648".toList
      ["101".toList, "-3".toList, "101".toList] 1001
      (by decide) (by decide) (by decide) (by decide)).1⟩

/-! ## Missing file, course bounds, duplicate-free lists, lookup -/

/-- C11: when the student file cannot be opened, `load_students` returns normally and the
destination collection is empty afterwards, whatever it held before; the counter is as
before. -/
theorem load_missing_file_gives_empty (student_list : List Student) (counter : Int) :
    (load_students none student_list counter).completion = Completion.returned
    ∧ (load_students none student_list counter).records = []
    ∧ count (load_students none student_list counter).records = 0
    ∧ (load_students none student_list counter).next_roll_number = counter := by
  unfold load_students
  simp [count]

/-- One call keeps the course id, title and capacity and keeps the counter between 0 and
the capacity. -/
theorem course_call_invariant (call : CourseCall) (c : Course)
    (h0 : 0 ≤ c.enrolled_students) (hle : c.enrolled_students ≤ c.capacity)
    (hcap : c.capacity ≤ INT_MAX) :
    (call.run c).course_id = c.course_id ∧ (call.run c).title = c.title
      ∧ (call.run c).capacity = c.capacity
      ∧ 0 ≤ (call.run c).enrolled_students
      ∧ (call.run c).enrolled_students ≤ (call.run c).capacity := by
  have hmin : INT_MIN ≤ c.enrolled_students := by unfold INT_MIN; omega
  cases call with
  | increment =>
    have e : CourseCall.increment.run c
        = (match c.increment_enrollment with
          | some c1 => c1
          | none => c) := rfl
    rw [e]
    by_cases hfull : c.capacity ≤ c.enrolled_students
    · rw [increment_enrollment_full c hfull]
      exact ⟨rfl, rfl, rfl, h0, hle⟩
    · rw [increment_enrollment_free c (by omega) hmin hcap]
      refine ⟨rfl, rfl, rfl, ?_, ?_⟩
      · show 0 ≤ c.enrolled_students + 1
        omega
      · show c.enrolled_students + 1 ≤ c.capacity
        omega
  | enroll s =>
    have e : (CourseCall.enroll s).run c = (s.enroll_course c).2.1 := rfl
    rw [e]
    by_cases hs : c.course_id ∈ s.enrolled_course_ids
    · have : s.enroll_course c = (s, c, EnrollOutcome.already_enrolled) := by
        unfold Student.enroll_course; simp [hs]
      rw [this]
      exact ⟨rfl, rfl, rfl, h0, hle⟩
    · by_cases hfull : c.capacity ≤ c.enrolled_students
      · rw [enroll_course_full s c hs hfull]
        exact ⟨rfl, rfl, rfl, h0, hle⟩
      · rw [enroll_course_free s c hs (by omega) hmin hcap]
        refine ⟨rfl, rfl, rfl, ?_, ?_⟩
        · show 0 ≤ c.enrolled_students + 1
          omega
        · show c.enrolled_students + 1 ≤ c.capacity
          omega

theorem run_calls_invariant : ∀ (calls : List CourseCall) (c : Course),
    0 ≤ c.enrolled_students → c.enrolled_students ≤ c.capacity → c.capacity ≤ INT_MAX →
    (run_calls calls c).course_id = c.course_id ∧ (run_calls calls c).title = c.title
      ∧ (run_calls calls c).capacity = c.capacity
      ∧ 0 ≤ (run_calls calls c).enrolled_students
      ∧ (run_calls calls c).enrolled_students ≤ (run_calls calls c).capacity := by
  intro calls
  induction calls with
  | nil => intro c h0 hle _; exact ⟨rfl, rfl, rfl, h0, hle⟩
  | cons call rest ih =>
    intro c h0 hle hcap
    obtain ⟨a1, a2, a3, a4, a5⟩ := course_call_invariant call c h0 hle hcap
    obtain ⟨b1, b2, b3, b4, b5⟩ := ih (call.run c) a4 a5 (by rw [a3]; exact hcap)
    simp only [run_calls]
    exact ⟨b1.trans a1, b2.trans a2, b3.trans a3, b4, b5⟩

/-- C12: for a course constructed with a capacity `cap ≥ 0` and every sequence of
`increment_enrollment` and `enroll(course)` calls on it, after every call (after every
prefix of the sequence) `0 ≤ enrolled_students ≤ capacity` holds and the capacity, the
course id and the title are those given at construction; a call made when
`enrolled_students = capacity` is rejected: `increment_enrollment` throws, `enroll(course)`
does not enroll, and course and student are left as they were. -/
theorem enrollment_count_within_bounds :
    (∀ (id : Int) (t : List Char) (cap : Int) (calls : List CourseCall) (k : Nat),
      0 ≤ cap → cap ≤ INT_MAX →
      0 ≤ (run_calls (calls.take k) (Course.create id t cap)).enrolled_students
      ∧ (run_calls (calls.take k) (Course.create id t cap)).enrolled_students
          ≤ (run_calls (calls.take k) (Course.create id t cap)).capacity
      ∧ (run_calls (calls.take k) (Course.create id t cap)).capacity = cap
      ∧ (run_calls (calls.take k) (Course.create id t cap)).course_id = id
      ∧ (run_calls (calls.take k) (Course.create id t cap)).title = t)
    ∧ (∀ (c : Course), c.enrolled_students = c.capacity →
      c.increment_enrollment = none
      ∧ CourseCall.increment.run c = c
      ∧ ∀ s : Student, (s.enroll_course c).2.2 ≠ EnrollOutcome.enrolled
          ∧ (s.enroll_course c).2.1 = c ∧ (s.enroll_course c).1 = s
          ∧ (c.course_id ∉ s.enrolled_course_ids →
              (s.enroll_course c).2.2 = EnrollOutcome.course_full)) := by
  constructor
  · intro id t cap calls k h0 hcap
    obtain ⟨a1, a2, a3, a4, a5⟩ := run_calls_invariant (calls.take k) (Course.create id t cap)
      (by simp [Course.create]) (by simpa [Course.create] using h0)
      (by simpa [Course.create] using hcap)
    exact ⟨a4, a5, a3, a1, a2⟩
  · intro c hfull
    have hf : c.capacity ≤ c.enrolled_students := by omega
    refine ⟨increment_enrollment_full c hf, ?_, ?_⟩
    · have e : CourseCall.increment.run c
          = (match c.increment_enrollment with
            | some c1 => c1
            | none => c) := rfl
      rw [e, increment_enrollment_full c hf]
    · intro s
      by_cases hs : c.course_id ∈ s.enrolled_course_ids
      · have : s.enroll_course c = (s, c, EnrollOutcome.already_enrolled) := by
          unfold Student.enroll_course; simp [hs]
        rw [this]
        exact ⟨by simp, rfl, rfl, fun h => absurd hs h⟩
      · rw [enroll_course_full s c hs hf]
        exact ⟨by simp, rfl, rfl, fun _ => rfl⟩

/-- Witness of C12: a course of capacity 1 after two of three calls. -/
theorem enrollment_count_within_bounds_witness :
    ((0 : Int) ≤ 1 ∧ (1 : Int) ≤ INT_MAX)
    ∧ (run_calls ([CourseCall.enroll (Student.mk 5001 "Alice".toList 1001 []),
          CourseCall.increment,
          CourseCall.enroll (Student.mk 5002 "Bob".toList 1002 [])].take 2)
        (Course.create 201 "CS".toList 1)).enrolled_students
      ≤ (run_calls ([CourseCall.enroll (Student.mk 5001 "Alice".toList 1001 []),
          CourseCall.increment,
          CourseCall.enroll (Student.mk 5002 "Bob".toList 1002 [])].take 2)
        (Course.create 201 "CS".toList 1)).capacity :=
  ⟨by decide,
    (enrollment_count_within_bounds.1 201 "CS".toList 1
      [CourseCall.enroll (Student.mk 5001 "Alice".toList 1001 []), CourseCall.increment,
        CourseCall.enroll (Student.mk 5002 "Bob".toList 1002 [])] 2
      (by decide) (by decide)).2.1⟩

theorem enroll_nodup (s : Student) (c : Int) (h : s.enrolled_course_ids.Nodup) :
    (s.enroll c).enrolled_course_ids.Nodup := by
  rw [(enroll_fields s c).2.2.2]
  by_cases hc : c ∈ s.enrolled_course_ids
  · simpa [hc] using h
  · simp only [hc, if_false]
    exact List.Nodup.append h (List.nodup_singleton c) (by simpa using hc)

theorem enroll_course_nodup (s : Student) (course : Course)
    (h : s.enrolled_course_ids.Nodup) :
    (s.enroll_course course).1.enrolled_course_ids.Nodup := by
  unfold Student.enroll_course
  by_cases hc : course.course_id ∈ s.enrolled_course_ids
  · simpa [hc] using h
  · simp only [hc, if_false]
    cases course.increment_enrollment with
    | none => exact h
    | some c1 =>
      exact List.Nodup.append h (List.nodup_singleton _) (by simpa using hc)

theorem run_enrolls_nodup : ∀ (calls : List EnrollCall) (s : Student),
    s.enrolled_course_ids.Nodup → (run_enrolls calls s).enrolled_course_ids.Nodup := by
  intro calls
  induction calls with
  | nil => intro s h; exact h
  | cons call rest ih =>
    intro s h
    simp only [run_enrolls]
    apply ih
    cases call with
    | by_id c => exact enroll_nodup s c h
    | by_course course => exact enroll_course_nodup s course h

theorem enroll_tokens_nodup : ∀ (toks : List (List Char)) (s0 s : Student),
    s0.enrolled_course_ids.Nodup → enroll_tokens toks s0 = LineOutcome.added s →
    s.enrolled_course_ids.Nodup := by
  intro toks
  induction toks with
  | nil =>
    intro s0 s h0 h
    simp only [enroll_tokens, LineOutcome.added.injEq] at h
    rw [← h]; exact h0
  | cons tok toks ih =>
    intro s0 s h0 h
    unfold enroll_tokens at h
    cases hst : std_stoi tok with
    | ok v =>
      rw [hst] at h
      exact ih (s0.enroll v) s (enroll_nodup s0 v h0) h
    | invalid_argument => rw [hst] at h; exact absurd h (by simp)
    | out_of_range => rw [hst] at h; exact absurd h (by simp)

/-- A record added for a line has a duplicate-free course list. -/
theorem load_line_added_nodup (line : List Char) (c : Int) (s : Student)
    (h : (load_line line c).1 = LineOutcome.added s) : s.enrolled_course_ids.Nodup := by
  unfold load_line at h
  split at h
  · exact absurd h (by simp)
  · split at h
    · split at h
      · exact absurd h (by simp)
      · exact absurd h (by simp)
      · split at h
        · exact absurd h (by simp)
        · exact absurd h (by simp)
        · split at h
          · split at h
            · simp only [Student.create_with_roll, LineOutcome.added.injEq] at h
              rw [← h]; exact List.nodup_nil
            · exact enroll_tokens_nodup _ _ s (by simp [Student.create_with_roll]) h
          · simp only [Student.create_with_roll, LineOutcome.added.injEq] at h
            rw [← h]; exact List.nodup_nil
    · exact absurd h (by simp)

theorem load_lines_nodup : ∀ (lines : List (List Char)) (records : List Student) (c : Int),
    (∀ s ∈ records, s.enrolled_course_ids.Nodup) →
    ∀ s ∈ (load_lines lines records c).records, s.enrolled_course_ids.Nodup := by
  intro lines
  induction lines with
  | nil => intro records c h; simpa [load_lines] using h
  | cons line lines ih =>
    intro records c h
    rcases hl : load_line line c with ⟨out, c1⟩
    cases out with
    | skipped => simp only [load_lines, hl]; exact ih records c1 h
    | corrupt => simp only [load_lines, hl]; exact ih records c1 h
    | escaped => simp only [load_lines, hl]; exact h
    | added s0 =>
      simp only [load_lines, hl]
      apply ih
      intro s hs
      simp only [add_record, List.mem_append, List.mem_singleton] at hs
      rcases hs with hs | hs
      · exact h s hs
      · rw [hs]
        exact load_line_added_nodup line c s0 (by rw [hl])

/-- C13: a student's course-id list never has a repeated element: not after creation by
either constructor followed by any sequence of `enroll(int)` and `enroll(course)` calls,
and not in any record `load_students` leaves in the collection, for any file (missing,
or with any text, also when the load ends with an exception); a course field `101,101`
gives the list `[101]`. -/
theorem course_list_never_has_duplicate :
    (∀ (n : List Char) (id counter : Int) (calls : List EnrollCall),
      (run_enrolls calls (Student.create n id counter).1).enrolled_course_ids.Nodup)
    ∧ (∀ (n : List Char) (id roll counter : Int) (calls : List EnrollCall),
      (run_enrolls calls
        (Student.create_with_roll n id roll counter).1).enrolled_course_ids.Nodup)
    ∧ (∀ (file : Option (List Char)) (student_list : List Student) (counter : Int),
      ∀ s ∈ (load_students file student_list counter).records,
        s.enrolled_course_ids.Nodup)
    ∧ (load_students (some "5001|Alice Smith|1001|101,101\n".toList) []
        Student.initial_next_roll_number).records
      = [Student.mk 5001 "Alice Smith".toList 1001 [101]] := by
  refine ⟨?_, ?_, ?_, by decide⟩
  · intro n id counter calls
    exact run_enrolls_nodup calls _ (by simp [Student.create])
  · intro n id roll counter calls
    exact run_enrolls_nodup calls _ (by simp [Student.create_with_roll])
  · intro file student_list counter
    unfold load_students
    cases file with
    | none => simp
    | some text =>
      simp only [List.take_zero]
      exact load_lines_nodup _ [] counter (by simp)

/-- Witness of C13: the record loaded from a line that repeats course ids. -/
theorem course_list_never_has_duplicate_witness :
    Student.mk 7 "Cy".toList 1500 [3, 101]
      ∈ (load_students (some "7|Cy|1500|3,101,3,101\n".toList) [] 1001).records
    ∧ (Student.mk 7 "Cy".toList 1500 [3, 101]).enrolled_course_ids.Nodup :=
  ⟨by decide,
    course_list_never_has_duplicate.2.2.1 (some "7|Cy|1500|3,101,3,101\n".toList) [] 1001
      (Student.mk 7 "Cy".toList 1500 [3, 101]) (by decide)⟩

theorem find_record_pos_spec : ∀ (records : List Student) (id : Int) (i : Nat),
    find_record_pos records id = some i →
    ∃ r, records[i]? = some r ∧ r.user_id = id ∧ find_record records id = some r
      ∧ ∀ (j : Nat) (q : Student), j < i → records[j]? = some q → q.user_id ≠ id := by
  intro records
  induction records with
  | nil => intro id i h; simp [find_record_pos] at h
  | cons record rest ih =>
    intro id i h
    unfold find_record_pos at h
    by_cases hr : record.user_id = id
    · simp only [hr, if_true, Option.some.injEq] at h
      subst h
      refine ⟨record, by simp, hr, by simp [find_record, hr], ?_⟩
      intro j q hj
      omega
    · simp only [hr, if_false, Option.map_eq_some'] at h
      obtain ⟨i0, hi0, hi⟩ := h
      obtain ⟨r, h1, h2, h3, h4⟩ := ih id i0 hi0
      subst hi
      refine ⟨r, by simpa using h1, h2, ?_, ?_⟩
      · unfold find_record at h3 ⊢
        simp [List.find?_cons, hr, h3]
      · intro j q hj hq
        cases j with
        | zero =>
          simp only [List.getElem?_cons_zero, Option.some.injEq] at hq
          rw [← hq]; exact hr
        | succ j =>
          simp only [List.getElem?_cons_succ] at hq
          exact h4 j q (by omega) hq

theorem find_record_pos_none : ∀ (records : List Student) (id : Int),
    find_record_pos records id = none ↔ ∀ r ∈ records, r.user_id ≠ id := by
  intro records
  induction records with
  | nil => intro id; simp [find_record_pos]
  | cons record rest ih =>
    intro id
    unfold find_record_pos
    by_cases hr : record.user_id = id
    · simp [hr]
    · simp [hr, ih]

/-- C14: `find_record(id)` returns the record at the smallest position whose id is `id`
when there is one (also when several records have that id), and not-found exactly when
no record has that id; `add_record(r)` makes the sequence the previous one followed by
`r`, and `count()` grows by exactly one. The lookup only reads the sequence. -/
theorem find_record_first_match :
    (∀ (records : List Student) (id : Int) (i : Nat),
      find_record_pos records id = some i →
      ∃ r, records[i]? = some r ∧ r.user_id = id ∧ find_record records id = some r
        ∧ ∀ (j : Nat) (q : Student), j < i → records[j]? = some q → q.user_id ≠ id)
    ∧ (∀ (records : List Student) (id : Int), (∃ r ∈ records, r.user_id = id) →
      ∃ i r, find_record_pos records id = some i ∧ find_record records id = some r)
    ∧ (∀ (records : List Student) (id : Int),
      (find_record records id = none ↔ ∀ r ∈ records, r.user_id ≠ id)
      ∧ (find_record_pos records id = none ↔ ∀ r ∈ records, r.user_id ≠ id))
    ∧ (∀ (records : List Student) (r : Student),
      add_record records r = records ++ [r]
      ∧ count (add_record records r) = count records + 1)
    ∧ find_record
        [Student.mk 7 "Ann".toList 1001 [], Student.mk 5 "Ben".toList 1002 [],
          Student.mk 5 "Cy".toList 1003 []] 5
      = some (Student.mk 5 "Ben".toList 1002 []) := by
  refine ⟨find_record_pos_spec, ?_, ?_, ?_, by decide⟩
  · intro records id hex
    cases hp : find_record_pos records id with
    | none =>
      obtain ⟨r, hr, hid⟩ := hex
      exact absurd hid ((find_record_pos_none records id).mp hp r hr)
    | some i =>
      obtain ⟨r, _, _, h3, _⟩ := find_record_pos_spec records id i hp
      exact ⟨i, r, rfl, h3⟩
  · intro records id
    refine ⟨?_, find_record_pos_none records id⟩
    unfold find_record
    simp [List.find?_eq_none]
  · intro records r
    simp [add_record, count]

/-- Witness of C14: the lookup of id 5 in a collection where two records have it. -/
theorem find_record_first_match_witness :
    find_record_pos
        [Student.mk 7 "Ann".toList 1001 [], Student.mk 5 "Ben".toList 1002 [],
          Student.mk 5 "Cy".toList 1003 []] 5 = some 1
    ∧ ∃ r, [Student.mk 7 "Ann".toList 1001 [], Student.mk 5 "Ben".toList 1002 [],
          Student.mk 5 "Cy".toList 1003 []][1]? = some r ∧ r.user_id = 5
        ∧ find_record
            [Student.mk 7 "Ann".toList 1001 [], Student.mk 5 "Ben".toList 1002 [],
              Student.mk 5 "Cy".toList 1003 []] 5 = some r
        ∧ ∀ (j : Nat) (q : Student), j < 1 →
            [Student.mk 7 "Ann".toList 1001 [], Student.mk 5 "Ben".toList 1002 [],
              Student.mk 5 "Cy".toList 1003 []][j]? = some q → q.user_id ≠ 5 :=
  ⟨by decide,
    find_record_first_match.1
      [Student.mk 7 "Ann".toList 1001 [], Student.mk 5 "Ben".toList 1002 [],
        Student.mk 5 "Cy".toList 1003 []] 5 1 (by decide)⟩

/-- C15: `get_total_students()` is `next_roll_number - 1` and the counter starts at 1001,
so it is 1000 in a fresh program and 1002 after the two students `main` creates, not the
number of students created. -/
theorem get_total_students_is_offset :
    Student.get_total_students Student.initial_next_roll_number = 1000
    ∧ (create_all [Creation.auto "Alice Smith".toList 5001,
          Creation.auto "Bob Johnson".toList 5002] Student.initial_next_roll_number).2 = 1003
    ∧ Student.get_total_students
        (create_all [Creation.auto "Alice Smith".toList 5001,
          Creation.auto "Bob Johnson".toList 5002] Student.initial_next_roll_number).2
      = 1002 := by
  decide

/-! ## Saving and loading a whole collection -/

theorem newline_not_mem_to_string (s : Student) (hn : newline ∉ s.name) :
    newline ∉ s.to_string := by
  have hd : ∀ v : Int, newline ∉ std_to_string v := fun v => (std_to_string_no_delim v).2.2
  have hp : newline ≠ '|' := by decide
  have hj : newline ∉ joinWith ',' (s.enrolled_course_ids.map std_to_string) := by
    intro hmem
    rcases mem_joinWith ',' _ _ hmem with h | ⟨t, ht, hc⟩
    · revert h; decide
    · obtain ⟨c, _, rfl⟩ := List.mem_map.mp ht
      exact hd c hc
  unfold Student.to_string
  rw [courses_str_eq_join]
  simp only [List.mem_append, List.mem_singleton, not_or]
  exact ⟨⟨⟨⟨⟨⟨hd _, hp⟩, hn⟩, hp⟩, hd _⟩, hp⟩, hj⟩

theorem foldl_append_lines (records : List Student) (init : List Char) :
    records.foldl (fun out s => out ++ (s.to_string ++ [newline])) init
      = init ++ records.flatMap (fun s => s.to_string ++ [newline]) := by
  induction records generalizing init with
  | nil => simp
  | cons r rest ih => simp [ih, List.flatMap_cons, List.append_assoc]

/-- The lines `getline` finds in a text made of lines that each end with the delimiter. -/
theorem split_terminated (d : Char) : ∀ (ls : List (List Char)), (∀ l ∈ ls, d ∉ l) →
    split (ls.flatMap (fun l => l ++ [d])) d = ls := by
  intro ls
  induction ls with
  | nil => intro _; exact split_nil d
  | cons l ls ih =>
    intro h
    have e : (l :: ls).flatMap (fun l => l ++ [d])
        = l ++ d :: ls.flatMap (fun l => l ++ [d]) := by
      simp [List.flatMap_cons, List.append_assoc]
    rw [e, split_append_cons d l _ (h l (List.mem_cons_self l ls)),
      ih (fun x hx => h x (List.mem_cons_of_mem l hx))]

/-- The line written for a student is decoded to that student. -/
theorem load_line_to_string (s : Student) (c : Int)
    (hid : InIntRange s.user_id) (hroll : InIntRange s.roll_number)
    (hcs : ∀ x ∈ s.enrolled_course_ids, InIntRange x) (hname : '|' ∉ s.name)
    (hnodup : s.enrolled_course_ids.Nodup) :
    load_line s.to_string c
      = (LineOutcome.added s,
          (Student.create_with_roll s.name s.user_id s.roll_number c).2) := by
  unfold Student.to_string
  rw [courses_str_eq_join, load_line_rendered _ _ _ _ c hid hroll hcs hname,
    keepFirst_nodup _ hnodup]

/-- A record that `save_students` and `load_students` carry unchanged: its numbers are
`int`s, its name has neither `|` nor a newline, its course list has no duplicate. -/
theorem load_lines_saved : ∀ (records acc : List Student) (c : Int),
    (∀ s ∈ records, InIntRange s.user_id ∧ InIntRange s.roll_number
      ∧ (∀ x ∈ s.enrolled_course_ids, InIntRange x) ∧ '|' ∉ s.name
      ∧ s.enrolled_course_ids.Nodup) →
    (load_lines (records.map Student.to_string) acc c).completion = Completion.returned
    ∧ (load_lines (records.map Student.to_string) acc c).records = acc ++ records := by
  intro records
  induction records with
  | nil => intro acc c _; simp [load_lines]
  | cons r rest ih =>
    intro acc c h
    obtain ⟨h1, h2, h3, h4, h5⟩ := h r (List.mem_cons_self r rest)
    simp only [List.map_cons, load_lines, load_line_to_string r c h1 h2 h3 h4 h5]
    obtain ⟨i1, i2⟩ := ih (add_record acc r)
      (Student.create_with_roll r.name r.user_id r.roll_number c).2
      (fun s hs => h s (List.mem_cons_of_mem r hs))
    refine ⟨i1, ?_⟩
    rw [i2]
    simp [add_record]

/-- C16: for every collection of students whose names contain neither `|` nor a newline
and whose course-id lists are duplicate-free, the file `save_students` writes holds
exactly one line per record, in collection order, each the record's `to_string()`, and
`load_students` on that file returns with a collection of the same records in the same
order (so of the same number), whatever the destination held and whatever the counter
was. -/
theorem save_load_round_trip (records student_list : List Student) (counter : Int)
    (h : ∀ s ∈ records, InIntRange s.user_id ∧ InIntRange s.roll_number
      ∧ (∀ x ∈ s.enrolled_course_ids, InIntRange x) ∧ '|' ∉ s.name ∧ newline ∉ s.name
      ∧ s.enrolled_course_ids.Nodup) :
    split (save_students records) newline = records.map Student.to_string
    ∧ (load_students (some (save_students records)) student_list counter).completion
      = Completion.returned
    ∧ (load_students (some (save_students records)) student_list counter).records = records
    ∧ count (load_students (some (save_students records)) student_list counter).records
      = count records := by
  have hsplit : split (save_students records) newline = records.map Student.to_string := by
    unfold save_students
    rw [foldl_append_lines, List.nil_append]
    have e : records.flatMap (fun s => s.to_string ++ [newline])
        = (records.map Student.to_string).flatMap (fun l => l ++ [newline]) := by
      simp [List.flatMap_map]
    rw [e]
    apply split_terminated
    intro l hl
    obtain ⟨s, hs, rfl⟩ := List.mem_map.mp hl
    exact newline_not_mem_to_string s (h s hs).2.2.2.2.1
  have hload := load_lines_saved records [] counter
    (fun s hs => ⟨(h s hs).1, (h s hs).2.1, (h s hs).2.2.1, (h s hs).2.2.2.1,
      (h s hs).2.2.2.2.2⟩)
  refine ⟨hsplit, ?_, ?_, ?_⟩
  · unfold load_students
    simp only [List.take_zero, hsplit]
    exact hload.1
  · unfold load_students
    simp only [List.take_zero, hsplit]
    simpa using hload.2
  · unfold load_students
    simp only [List.take_zero, hsplit]
    rw [hload.2]
    simp

/-- Witness of C16: the two students of `main` after their enrollments. -/
theorem save_load_round_trip_witness :
    (∀ s ∈ [Student.mk 5001 "Alice Smith".toList 1001 [101],
          Student.mk 5002 "Bob Johnson".toList 1002 [101, 201]],
        InIntRange s.user_id ∧ InIntRange s.roll_number
        ∧ (∀ x ∈ s.enrolled_course_ids, InIntRange x) ∧ '|' ∉ s.name ∧ newline ∉ s.name
        ∧ s.enrolled_course_ids.Nodup)
    ∧ (load_students (some (save_students [Student.mk 5001 "Alice Smith".toList 1001 [101],
          Student.mk 5002 "Bob Johnson".toList 1002 [101, 201]]))
        [Student.mk 1 "Old".toList 1 []] 1003).records
      = [Student.mk 5001 "Alice Smith".toList 1001 [101],
          Student.mk 5002 "Bob Johnson".toList 1002 [101, 201]] :=
  ⟨by decide,
    (save_load_round_trip
      [Student.mk 5001 "Alice Smith".toList 1001 [101],
        Student.mk 5002 "Bob Johnson".toList 1002 [101, 201]]
      [Student.mk 1 "Old".toList 1 []] 1003 (by decide)).2.2.1⟩

/-! ## Skipped lines -/

/-- A value `std::stoi` returns is an `int`. -/
theorem std_stoi_in_range (s : List Char) (v : Int) (h : std_stoi s = StoiResult.ok v) :
    InIntRange v := by
  unfold std_stoi at h
  dsimp only at h
  split_ifs at h
  all_goals
    simp only [StoiResult.ok.injEq] at h
    rw [← h]
    unfold InIntRange
    omega

/-- The ways the loop body ends for one line: without constructing a student, the counter
as it was, or with the student constructed from the parsed id and roll number. -/
theorem load_line_cases (line : List Char) (c : Int) :
    ((load_line line c = (LineOutcome.skipped, c) ∨ load_line line c = (LineOutcome.corrupt, c))
      ∨ load_line line c = (LineOutcome.escaped, c))
    ∨ ∃ p0 p1 p2 more id roll, split line '|' = p0 :: p1 :: p2 :: more
        ∧ std_stoi p0 = StoiResult.ok id ∧ std_stoi p2 = StoiResult.ok roll
        ∧ load_line line c =
          (enroll_tokens (course_tokens more) (Student.create_with_roll p1 id roll c).1,
            (Student.create_with_roll p1 id roll c).2) := by
  by_cases he : line.isEmpty = true
  · left; left; left
    unfold load_line
    simp [he]
  · cases hsplit : split line '|' with
    | nil => left; left; left; unfold load_line; simp [he, hsplit]
    | cons p0 r1 =>
      cases r1 with
      | nil => left; left; left; unfold load_line; simp [he, hsplit]
      | cons p1 r2 =>
        cases r2 with
        | nil => left; left; left; unfold load_line; simp [he, hsplit]
        | cons p2 more =>
          cases h0 : std_stoi p0 with
          | invalid_argument => left; left; right; unfold load_line; simp [he, hsplit, h0]
          | out_of_range => left; right; unfold load_line; simp [he, hsplit, h0]
          | ok id =>
            cases h2 : std_stoi p2 with
            | invalid_argument =>
              left; left; right; unfold load_line; simp [he, hsplit, h0, h2]
            | out_of_range => left; right; unfold load_line; simp [he, hsplit, h0, h2]
            | ok roll =>
              right
              exact ⟨p0, p1, p2, more, id, roll, rfl, h0, h2,
                load_line_tokens line p0 p1 p2 more c id roll hsplit h0 h2⟩

/-- One line of a load without overflow: the counter does not decrease, stays an `int`,
and exceeds the roll number of the record the line adds. -/
theorem load_line_counter (line : List Char) (c : Int) (hc : InIntRange c)
    (hfit : line_roll_fits line = true) :
    c ≤ (load_line line c).2 ∧ InIntRange (load_line line c).2
      ∧ ∀ s, (load_line line c).1 = LineOutcome.added s →
          s.roll_number < (load_line line c).2 := by
  rcases load_line_cases line c with ((h | h) | h) | ⟨p0, p1, p2, more, id, roll, hsplit, h0, h2, h⟩
  · rw [h]; exact ⟨le_refl c, hc, fun s hs => absurd hs (by simp)⟩
  · rw [h]; exact ⟨le_refl c, hc, fun s hs => absurd hs (by simp)⟩
  · rw [h]; exact ⟨le_refl c, hc, fun s hs => absurd hs (by simp)⟩
  · have hroll := std_stoi_in_range p2 roll h2
    have hlt : roll < INT_MAX := by
      unfold line_roll_fits at hfit
      rw [hsplit] at hfit
      simp only [parses, stoi_value, h0, h2, Bool.and_self, Bool.not_true, Bool.false_or,
        decide_eq_true_eq] at hfit
      exact hfit
    have hw : wrap32 (roll + 1) = roll + 1 :=
      wrap32_of_in_range _ (by unfold InIntRange INT_MIN INT_MAX at *; omega)
    have hcount : (Student.create_with_roll p1 id roll c).2
        = if roll ≥ c then roll + 1 else c := by
      simp only [Student.create_with_roll, hw]
    rw [h]
    simp only [hcount]
    refine ⟨?_, ?_, ?_⟩
    · by_cases hge : roll ≥ c
      · simp only [hge, if_true]; omega
      · simp only [hge, if_false]; omega
    · unfold InIntRange INT_MIN INT_MAX at *
      by_cases hge : roll ≥ c
      · simp only [hge, if_true]; omega
      · simp only [hge, if_false]; omega
    · intro s hs
      have hr := (enroll_tokens_added _ _ s hs).2.2
      simp only [Student.create_with_roll] at hr
      rw [hr]
      by_cases hge : roll ≥ c
      · simp only [hge, if_true]; omega
      · simp only [hge, if_false]; omega

/-- A load without overflow: the counter does not decrease, stays an `int` and exceeds
the roll number of every record in the collection, given that it exceeded those of the
records the collection held. -/
theorem load_lines_counter : ∀ (lines : List (List Char)) (records : List Student)
    (c : Int), InIntRange c → lines_fit lines c = true →
    (∀ s ∈ records, s.roll_number < c) →
    c ≤ (load_lines lines records c).next_roll_number
      ∧ InIntRange (load_lines lines records c).next_roll_number
      ∧ ∀ s ∈ (load_lines lines records c).records,
          s.roll_number < (load_lines lines records c).next_roll_number := by
  intro lines
  induction lines with
  | nil => intro records c hc _ h; exact ⟨le_refl c, hc, h⟩
  | cons line lines ih =>
    intro records c hc hfit h
    simp only [lines_fit, Bool.and_eq_true] at hfit
    obtain ⟨hline, hrest⟩ := hfit
    obtain ⟨k1, k2, k3⟩ := load_line_counter line c hc hline
    rcases hl : load_line line c with ⟨out, c1⟩
    rw [hl] at k1 k2 k3 hrest
    simp only at k1 k2 k3 hrest
    have hold : ∀ s ∈ records, s.roll_number < c1 :=
      fun s hs => lt_of_lt_of_le (h s hs) k1
    cases out with
    | escaped =>
      simp only [load_lines, hl]
      exact ⟨k1, k2, hold⟩
    | skipped =>
      simp only [load_lines, hl]
      obtain ⟨i1, i2, i3⟩ := ih records c1 k2 hrest hold
      exact ⟨le_trans k1 i1, i2, i3⟩
    | corrupt =>
      simp only [load_lines, hl]
      obtain ⟨i1, i2, i3⟩ := ih records c1 k2 hrest hold
      exact ⟨le_trans k1 i1, i2, i3⟩
    | added s0 =>
      simp only [load_lines, hl]
      have hnew : ∀ s ∈ add_record records s0, s.roll_number < c1 := by
        intro s hs
        simp only [add_record, List.mem_append, List.mem_singleton] at hs
        rcases hs with hs | hs
        · exact hold s hs
        · rw [hs]; exact k3 s0 rfl
      obtain ⟨i1, i2, i3⟩ := ih (add_record records s0) c1 k2 hrest hnew
      exact ⟨le_trans k1 i1, i2, i3⟩

/-- One step without overflow: the counter does not decrease, stays an `int` and exceeds
the roll number of every record of the step; a record of the step made by the
auto-assigning constructor is the only record of the step and has the old counter as roll
number. -/
theorem event_step (e : Event) (c : Int) (hc : InIntRange c)
    (hty : e.roll_in_range = true) (hfit : e.fits c = true) :
    c ≤ (e.run c).2 ∧ InIntRange (e.run c).2
      ∧ (∀ p ∈ (e.run c).1, p.1.roll_number < (e.run c).2)
      ∧ (∀ p ∈ (e.run c).1, p.2 = Origin.auto →
          c ≤ p.1.roll_number ∧ (e.run c).1 = [p]) := by
  cases e with
  | auto n id =>
    simp only [Event.fits, decide_eq_true_eq] at hfit
    have hw : wrap32 (c + 1) = c + 1 :=
      wrap32_of_in_range _ (by unfold InIntRange INT_MIN INT_MAX at *; omega)
    simp only [Event.run, Student.create, hw, List.mem_singleton]
    refine ⟨by omega, ?_, ?_, ?_⟩
    · unfold InIntRange INT_MIN INT_MAX at *; omega
    · intro p hp; rw [hp]; show c < c + 1; omega
    · intro p hp _; rw [hp]; exact ⟨le_refl c, rfl⟩
  | with_roll n id roll =>
    simp only [Event.fits, decide_eq_true_eq] at hfit
    simp only [Event.roll_in_range, decide_eq_true_eq] at hty
    have hw : wrap32 (roll + 1) = roll + 1 :=
      wrap32_of_in_range _ (by unfold InIntRange INT_MIN INT_MAX at *; omega)
    simp only [Event.run, Student.create_with_roll, hw, List.mem_singleton]
    refine ⟨?_, ?_, ?_, ?_⟩
    · by_cases hge : roll ≥ c
      · simp only [hge, if_true]; omega
      · simp only [hge, if_false]; omega
    · unfold InIntRange INT_MIN INT_MAX at *
      by_cases hge : roll ≥ c
      · simp only [hge, if_true]; omega
      · simp only [hge, if_false]; omega
    · intro p hp
      rw [hp]
      show roll < _
      by_cases hge : roll ≥ c
      · simp only [hge, if_true]; omega
      · simp only [hge, if_false]; omega
    · intro p hp ho
      rw [hp] at ho
      exact absurd ho (by simp)
  | load file =>
    have hno : ∀ p ∈ (Event.run (Event.load file) c).1, p.2 = Origin.auto →
        c ≤ p.1.roll_number ∧ (Event.run (Event.load file) c).1 = [p] := by
      intro p hp ho
      simp only [Event.run, List.mem_map] at hp
      obtain ⟨s, _, hs⟩ := hp
      rw [← hs] at ho
      exact absurd ho (by simp)
    refine ⟨?_, ?_, ?_, hno⟩
    all_goals
      cases file with
      | none =>
        simp only [Event.run, load_students, List.take_zero, List.map_nil,
          List.not_mem_nil, false_implies, implies_true, le_refl]
        try exact hc
      | some text =>
        simp only [Event.fits] at hfit
        obtain ⟨i1, i2, i3⟩ := load_lines_counter (split text newline) [] c hc hfit
          (by simp)
        simp only [Event.run, load_students, List.take_zero]
        first
          | exact i1
          | exact i2
          | (intro p hp
             simp only [List.mem_map] at hp
             obtain ⟨s, hs, hps⟩ := hp
             rw [← hps]
             exact i3 s hs)

theorem event_pairwise (e : Event) (c : Int) :
    (e.run c).1.Pairwise
      (fun a b => b.2 = Origin.auto → a.1.roll_number < b.1.roll_number) := by
  cases e with
  | auto n id => exact List.pairwise_singleton _ _
  | with_roll n id roll => exact List.pairwise_singleton _ _
  | load file =>
    apply List.pairwise_of_forall_mem_list
    intro a _ b hb ho
    simp only [Event.run, List.mem_map] at hb
    obtain ⟨s, _, hs⟩ := hb
    rw [← hs] at ho
    exact absurd ho (by simp)

/-- A sequence of steps without overflow: the counter does not decrease, stays an `int`
and exceeds every roll number of the sequence, and a record made by the auto-assigning
constructor has a roll number above that of every record created before it. -/
theorem run_events_invariant : ∀ (events : List Event) (c : Int), InIntRange c →
    (∀ e ∈ events, e.roll_in_range = true) → events_fit events c = true →
    c ≤ (run_events events c).2 ∧ InIntRange (run_events events c).2
      ∧ (∀ p ∈ (run_events events c).1, p.1.roll_number < (run_events events c).2)
      ∧ (∀ p ∈ (run_events events c).1, p.2 = Origin.auto → c ≤ p.1.roll_number)
      ∧ (run_events events c).1.Pairwise
          (fun a b => b.2 = Origin.auto → a.1.roll_number < b.1.roll_number) := by
  intro events
  induction events with
  | nil =>
    intro c hc _ _
    exact ⟨le_refl c, hc, by simp [run_events], by simp [run_events],
      by simp [run_events]⟩
  | cons e rest ih =>
    intro c hc hty hfit
    simp only [events_fit, Bool.and_eq_true] at hfit
    obtain ⟨s1, s2, s3, s4⟩ := event_step e c hc (hty e (List.mem_cons_self e rest)) hfit.1
    obtain ⟨i1, i2, i3, i4, i5⟩ := ih (e.run c).2 s2
      (fun x hx => hty x (List.mem_cons_of_mem e hx)) hfit.2
    simp only [run_events]
    refine ⟨le_trans s1 i1, i2, ?_, ?_, ?_⟩
    · intro p hp
      rcases List.mem_append.mp hp with hp | hp
      · exact lt_of_lt_of_le (s3 p hp) i1
      · exact i3 p hp
    · intro p hp ho
      rcases List.mem_append.mp hp with hp | hp
      · exact (s4 p hp ho).1
      · exact le_trans s1 (i4 p hp ho)
    · rw [List.pairwise_append]
      refine ⟨event_pairwise e c, i5, ?_⟩
      intro a ha b hb ho
      exact lt_of_lt_of_le (s3 a ha) (i4 b hb ho)

theorem pairwise_getElem? {α : Type} {R : α → α → Prop} {l : List α} (h : l.Pairwise R)
    (i j : Nat) (a b : α) (hij : i < j) (hi : l[i]? = some a) (hj : l[j]? = some b) :
    R a b := by
  obtain ⟨hi1, ei⟩ := List.getElem?_eq_some.mp hi
  obtain ⟨hj1, ej⟩ := List.getElem?_eq_some.mp hj
  rw [← ei, ← ej]
  exact List.pairwise_iff_getElem.mp h i j hi1 hj1 hij

/-- C10, amended: over every sequence of student creations by the auto-assigning
constructor, by the explicit-roll constructor and by `load_students` reading any file, in
which the supplied roll numbers are `int`s and no increment overflows, a record made by
the auto-assigning constructor has a roll number above that of every record created before
it, so two records can have the same roll number only when the later one was given its
roll number explicitly (by the constructor called directly or by a load), and the counter
after the sequence is above every roll number created. After a load without overflow the
counter has not decreased and is above the roll number of every record loaded. The same
freshness holds over sequences of the two constructors alone. `load_students` creates its records with explicit roll
numbers: what a line is decoded to does not depend on the counter, and the roll number of
the record is the number read in the third field. -/
theorem auto_roll_numbers_fresh :
    (∀ (events : List Event) (c0 : Int), InIntRange c0 →
      (∀ e ∈ events, e.roll_in_range = true) → events_fit events c0 = true →
      (∀ (i j : Nat) (a b : Student × Origin), i < j →
        (run_events events c0).1[i]? = some a → (run_events events c0).1[j]? = some b →
        (b.2 = Origin.auto → a.1.roll_number < b.1.roll_number)
        ∧ (a.1.roll_number = b.1.roll_number →
            b.2 = Origin.explicit ∨ b.2 = Origin.loaded))
      ∧ (∀ p ∈ (run_events events c0).1, p.1.roll_number < (run_events events c0).2))
    ∧ (∀ (file : Option (List Char)) (student_list : List Student) (c : Int),
      InIntRange c → (Event.load file).fits c = true →
      c ≤ (load_students file student_list c).next_roll_number
      ∧ ∀ s ∈ (load_students file student_list c).records,
          s.roll_number < (load_students file student_list c).next_roll_number)
    ∧ (∀ (ops : List Creation) (c0 : Int), InIntRange c0 →
      (∀ op ∈ ops, op.roll_in_range = true) → no_overflow ops c0 = true →
      ∀ (i j : Nat) (si sj : Student), i < j →
        (create_all ops c0).1[i]? = some si → (create_all ops c0).1[j]? = some sj →
        si.roll_number = sj.roll_number →
        ∃ n id roll, ops[j]? = some (Creation.with_roll n id roll))
    ∧ (∀ (line : List Char) (c d : Int), (load_line line c).1 = (load_line line d).1)
    ∧ (∀ (line : List Char) (c : Int) (s : Student),
        (load_line line c).1 = LineOutcome.added s →
        ∃ p0 p1 p2 more, split line '|' = p0 :: p1 :: p2 :: more
          ∧ std_stoi p2 = StoiResult.ok s.roll_number) := by
  refine ⟨?_, ?_, ?_, load_line_outcome_counter_free, load_line_added_roll⟩
  · intro events c0 hc0 hty hfit
    obtain ⟨_, _, h3, _, h5⟩ := run_events_invariant events c0 hc0 hty hfit
    refine ⟨?_, h3⟩
    intro i j a b hij hi hj
    have hlt := pairwise_getElem? h5 i j a b hij hi hj
    refine ⟨hlt, ?_⟩
    intro heq
    cases hb : b.2 with
    | auto => have := hlt hb; omega
    | explicit => exact Or.inl rfl
    | loaded => exact Or.inr rfl
  · intro file student_list c hc hfit
    cases file with
    | none => simp [load_students]
    | some text =>
      simp only [Event.fits] at hfit
      obtain ⟨i1, _, i3⟩ := load_lines_counter (split text newline) [] c hc hfit (by simp)
      simp only [load_students, List.take_zero]
      exact ⟨i1, i3⟩
  · intro ops c0 hc0 hty hno i j si sj hij hi hj heq
    have hjlt : j < ops.length := by
      rcases Nat.lt_or_ge j ops.length with h | h
      · exact h
      · have : (create_all ops c0).1.length ≤ j := by rw [create_all_length]; exact h
        rw [List.getElem?_eq_none this] at hj
        exact absurd hj (by simp)
    cases hop : ops[j] with
    | with_roll n id roll =>
      exact ⟨n, id, roll, by rw [List.getElem?_eq_getElem hjlt, hop]⟩
    | auto n id =>
      have := auto_roll_gt_earlier ops c0 hc0 hty hno i j si sj n id hij hi hj
        (by rw [List.getElem?_eq_getElem hjlt, hop])
      omega

/-- Witness of C10: an explicit creation, a load of a file with a record that repeats its
roll number and a line skipped after its student was constructed, then an auto-assigning
creation, which gets roll number 2001. -/
theorem auto_roll_numbers_fresh_witness :
    (InIntRange Student.initial_next_roll_number
      ∧ (∀ e ∈ [Event.with_roll "Ann".toList 1 1500,
            Event.load (some "2|Ben|1500\n3|Cy|2000|x\n".toList),
            Event.auto "Dee".toList 4], e.roll_in_range = true)
      ∧ events_fit [Event.with_roll "Ann".toList 1 1500,
            Event.load (some "2|Ben|1500\n3|Cy|2000|x\n".toList),
            Event.auto "Dee".toList 4] Student.initial_next_roll_number = true)
    ∧ (run_events [Event.with_roll "Ann".toList 1 1500,
            Event.load (some "2|Ben|1500\n3|Cy|2000|x\n".toList),
            Event.auto "Dee".toList 4] Student.initial_next_roll_number).1
      = [(Student.mk 1 "Ann".toList 1500 [], Origin.explicit),
          (Student.mk 2 "Ben".toList 1500 [], Origin.loaded),
          (Student.mk 4 "Dee".toList 2001 [], Origin.auto)]
    ∧ ((Student.mk 4 "Dee".toList 2001 [], Origin.auto).2 = Origin.auto →
        (Student.mk 2 "Ben".toList 1500 [], Origin.loaded).1.roll_number
          < (Student.mk 4 "Dee".toList 2001 [], Origin.auto).1.roll_number) :=
  ⟨by decide, by decide,
    ((auto_roll_numbers_fresh.1
      [Event.with_roll "Ann".toList 1 1500,
        Event.load (some "2|Ben|1500\n3|Cy|2000|x\n".toList), Event.auto "Dee".toList 4]
      Student.initial_next_roll_number (by decide) (by decide) (by decide)).1 1 2
      (Student.mk 2 "Ben".toList 1500 [], Origin.loaded)
      (Student.mk 4 "Dee".toList 2001 [], Origin.auto)
      (by decide) (by decide) (by decide)).1⟩

end UMS
